import Mathlib

/-!
Verification development for the task-agenda engine of the `todo` utility
(`src/todo.c` of the orgutils repository).

The embedding keeps the C identifiers where possible.  Time is modelled at
day resolution: the C program puts both `today` and every due date at noon
(`MIDDAY`) of their day, so `difftime(due, today) / SECS_PER_DAY` is exactly
the difference of the day numbers (daylight-saving shifts are ignored, and
the constants `MIDDAY` and `SECS_PER_DAY` live in a header that is not part
of the sources).  A `due` value of `none` stands for the unset `time_t` 0.

Pointer structures are replaced by name-keyed lists: `lookupcreate`
deduplicates tasks by name, so a task's name is its identity, and the
unsorted singly linked list (newest first, since `lookupcreate` pushes on
the head) carries the registry.  `malloc`ed fields that `lookupcreate`
leaves uninitialized are given the definite defaults below; a completed run
never observes them on an uninitialized task, because `sorttasks` aborts on
such a task before using them.
-/

namespace OrgTodo

/-- The constant `DEFDAYS` of todo.c line 13: default days til deadline for
tasks without a deadline. -/
def DEFDAYS : Int := 8

/-- The constant `DEFNICE` of todo.c line 14: log2 of `DEFDAYS`. -/
def DEFNICE : Int := 3

/-- A task: shallow embedding of `struct Task` (todo.c lines 66-122).  The
list-link pointers are represented by the containing lists; `deps` is the
linked list of dependency edges, head = most recently added edge. -/
structure Task where
  name : String
  init : Bool := false
  nice : Int := DEFNICE
  visited : Nat := 0
  due : Option Int := none
  pri : Int := 0
  done : Bool := false
  date : Option String := none
  deps : List String := []
  desc : String := ""
  deriving Repr, DecidableEq

/-- The agenda during the sorting phase: the registry (the unsorted list, in
C iteration order) and the topologically sorted list (head = `shead`),
from `struct Agenda` (todo.c lines 23-63). -/
structure Agenda where
  tasks : List Task
  sorted : List String
  deriving Repr, DecidableEq

/-- Name lookup in the registry (the role of the hash table, todo.c 196-219). -/
def findTask (ts : List Task) (n : String) : Option Task :=
  ts.find? (fun t => t.name == n)

/-- Update, through its unique name, the task `n` points at. -/
def updTask (ts : List Task) (n : String) (f : Task → Task) : List Task :=
  ts.map (fun t => if t.name == n then f t else t)

/-- The fatal errors `errx` raises in todo.c (lines 413 and 482). -/
inductive CErr where
  | cyclic
  | undefinedTask (name : String)
  deriving Repr, DecidableEq

/-- The message `errx` prints for each fatal error (todo.c 413 and 482). -/
def errmsg : CErr → String
  | .cyclic => "cyclic dependency between tasks"
  | .undefinedTask n => "task \"" ++ n ++ "\" mentioned but not defined"

/-- Result of the sorting phase: success, an `errx` abort, or exhaustion of
the fuel that makes the recursive `visittask` total (an artifact of the
embedding, proved unreachable for the fuel `sorttasks` supplies). -/
inductive VRes (α : Type) where
  | ok (a : α)
  | err (e : CErr)
  | fuelOut
  deriving Repr, DecidableEq

/-- Substring test (whether `needle` occurs inside `hay`), used to state what
an error message does or does not name. -/
def hasSub (needle hay : List Char) : Bool :=
  hay.tails.any (fun s => needle.isPrefixOf s)

/-- Write `v` into the `visited` field of task `n` (todo.c 414 and 417). -/
def markVisited (st : Agenda) (n : String) (v : Nat) : Agenda :=
  { st with tasks := updTask st.tasks n (fun t => { t with visited := v }) }

/-- Append task `n` to the tail of the sorted doubly linked list
(todo.c 418-423). -/
def appendSorted (st : Agenda) (n : String) : Agenda :=
  { st with sorted := st.sorted ++ [n] }

/-- The function `visittask` (todo.c 405-424): depth-first visit of a task
and its dependencies.  `visited` is 0 = unvisited, 1 = in progress,
2 = finished; meeting an in-progress task is a cyclic dependency (`errx`).
The C recursion is made total by `fuel`; `sorttasks` supplies more fuel
than there are tasks, which is proved never to run out. -/
def visittask (fuel : Nat) (st : Agenda) (n : String) : VRes Agenda :=
  match fuel with
  | 0 => .fuelOut
  | f + 1 =>
    match findTask st.tasks n with
    | none => .ok st
    | some t =>
      if t.visited > 1 then .ok st
      else if t.visited = 1 then .err .cyclic
      else
        match t.deps.foldl (fun (r : VRes Agenda) d =>
            match r with
            | .ok s => visittask f s d
            | r => r) (.ok (markVisited st n 1)) with
        | .ok st2 => .ok (appendSorted (markVisited st2 n 2) n)
        | r => r

/-- First pass of `sorttasks` (todo.c 479-487): walk the unsorted list,
abort on a task that was mentioned but never defined, and visit every
not-yet-visited task.  Each visit gets fuel `ntasks + 1`. -/
def pass1 (st : Agenda) : List String → VRes Agenda
  | [] => .ok st
  | n :: ns =>
    match findTask st.tasks n with
    | none => pass1 st ns
    | some t =>
      if ¬ t.init then .err (.undefinedTask t.name)
      else if t.visited ≠ 0 then pass1 st ns
      else
        match visittask (st.tasks.length + 1) st n with
        | .ok st' => pass1 st' ns
        | r => r

/-- Number of iterations of the loop `while (ndays >>= 1)` of todo.c 438 and
442: the floor base-2 logarithm for arguments above 1, and 0 at 0 and 1. -/
def shiftsAux : Nat → Nat → Nat
  | 0, _ => 0
  | f + 1, n => if n ≤ 1 then 0 else shiftsAux f (n / 2) + 1

/-- The loop, with structural fuel `n` (the argument at least halves each
iteration, so `n` iterations always suffice). -/
def shifts (n : Nat) : Nat := shiftsAux n n

/-- The niceness `calcnice` computes for a task from its own deadline and
priority alone (todo.c 434-446): `ndays` is `difftime(due, today) /
SECS_PER_DAY - 1` when a due date is set (exact in the day model) and
`DEFDAYS` when not; the shift loop takes the floor log2 of its magnitude,
negated for overdue tasks, and the priority is subtracted. -/
def ownNice (today : Int) (t : Task) : Int :=
  let ndays : Int :=
    match t.due with
    | some d => d - today - 1
    | none => DEFDAYS
  let base : Int :=
    if ndays < 0 then -(shifts (-ndays).toNat : Int) else (shifts ndays.toNat : Int)
  base - t.pri

/-- One call of `calcnice` (todo.c 427-454) on the task named `n`: lower the
task's nice to its own niceness if that is smaller, then lower the nice of
each dependency to the task's nice if that is smaller.  All reads go
through the current registry, as the C code reads the live structures. -/
def calcniceStep (today : Int) (st : Agenda) (n : String) : Agenda :=
  match findTask st.tasks n with
  | none => st
  | some t =>
    let nice := ownNice today t
    let st1 : Agenda :=
      if nice < t.nice then
        { st with tasks := updTask st.tasks n (fun u => { u with nice := nice }) }
      else st
    t.deps.foldl (fun s d =>
      match findTask s.tasks n, findTask s.tasks d with
      | some tn, some td =>
        if tn.nice < td.nice then
          { s with tasks := updTask s.tasks d (fun u => { u with nice := tn.nice }) }
        else s
      | _, _ => s) st1

/-- Second pass of `sorttasks` (todo.c 489-492): compute nicenesses in
reverse topological order, from `stail` back to `shead`. -/
def pass2 (today : Int) (st : Agenda) : Agenda :=
  st.sorted.reverse.foldl (calcniceStep today) st

/-- Whether every dependency of `t` is done: the negation of the `cont` scan
of todo.c 500-510 (a task with no dependencies passes). -/
def depsDone (ts : List Task) (t : Task) : Bool :=
  t.deps.all (fun d =>
    match findTask ts d with
    | some u => u.done
    | none => true)

/-- Third pass of `sorttasks` (todo.c 494-513): walk the sorted list and
collect the tasks that are neither done nor blocked by an undone
dependency into the array of unblocked tasks. -/
def unblocked (st : Agenda) : List Task :=
  (st.sorted.filterMap (findTask st.tasks)).filter
    (fun t => !t.done && depsDone st.tasks t)

/-- The comparison `comparetask` (todo.c 457-469) as the boolean order the
sort below uses. -/
def niceLe (a b : Task) : Bool := a.nice ≤ b.nice

/-- Insertion into a list that is sorted by niceness. -/
def insertByNice (t : Task) : List Task → List Task
  | [] => [t]
  | u :: us => if niceLe t u then t :: u :: us else u :: insertByNice t us

/-- Fourth pass of `sorttasks` (todo.c 516): sort the unblocked array by
niceness under `comparetask`.  `qsort` is unstable, so only the niceness
order and the membership of the result are specified; insertion sort
realizes one admissible outcome. -/
def sortByNice (l : List Task) : List Task := l.foldr insertByNice []

/-- The function `sorttasks` (todo.c 472-517), passes one and two: the
topological sort with its two fatal checks, then the niceness
computation.  Success carries the final agenda; the array passes are
`unblocked` and `output` below. -/
def sorttasks (today : Int) (ts : List Task) : VRes Agenda :=
  match pass1 { tasks := ts, sorted := [] } (ts.map (fun t => t.name)) with
  | .ok st => .ok (pass2 today st)
  | r => r

/-- Passes three and four of `sorttasks` followed by `printtasks`
(todo.c 494-516 and 520-549): the tasks printed, in print order. -/
def output (st : Agenda) : List Task := sortByNice (unblocked st)

/-- The nice field of the task named `n` (0 when `n` is not registered; a
completed run only asks about registered names). -/
def niceAt (st : Agenda) (n : String) : Int :=
  match findTask st.tasks n with
  | some t => t.nice
  | none => 0

/-- The final nice value the whole sorting phase assigns to task `n`, or
`none` when the run aborts. -/
def runNice (today : Int) (ts : List Task) (n : String) : Option Int :=
  match sorttasks today ts with
  | .ok st => some (niceAt st n)
  | _ => none

/-- The list the whole run prints: the output of the final agenda on
success, nothing on an aborted run. -/
def outputOf (today : Int) (ts : List Task) : List Task :=
  match sorttasks today ts with
  | .ok st => output st
  | _ => []

/-! ## The reading phase

The functions below embed `readtasks`, `addtask`, `adddue`, `adddeps` and
`lookupcreate`.  The runs modelled here have a single input source, so the
`prefix` argument of the C functions is `NULL` and `getfullname` returns its
name argument unchanged; line continuation, stream errors and the `#`-less
comment handling beyond the first byte are I/O concerns outside the core. -/

/-- The `isspace(3)` predicate in the C locale. -/
def cIsSpace (c : Char) : Bool :=
  c = ' ' || c = '\t' || c = '\n' || c = Char.ofNat 11 || c = Char.ofNat 12 || c = '\r'

/-- The function `lookupcreate` (todo.c 196-219) with a `NULL` prefix: find
the task by name, or push a new one onto the head of the unsorted list.
Fields other than the name stay at the defaults discussed above. -/
def lookupcreate (ts : List Task) (n : String) : List Task :=
  match findTask ts n with
  | some _ => ts
  | none => { name := n : Task } :: ts

/-- Tokenization by `strtok(s, ",")` (todo.c 229): the nonempty fields
between commas. -/
def splitOn (sep : Char) : List Char → List (List Char)
  | [] => [[]]
  | c :: cs =>
    let r := splitOn sep cs
    if c = sep then [] :: r
    else
      match r with
      | [] => [[c]]
      | w :: ws => (c :: w) :: ws

/-- The comma tokenization of `strtok(3)` as `adddeps` drives it: the
nonempty fields between commas, in order. -/
def strtokComma (s : String) : List String :=
  ((splitOn ',' s.toList).map String.mk).filter (fun w => w ≠ "")

/-- The function `adddeps` (todo.c 222-236): for each comma token, look up or
create the task and push a new edge onto the head of the dependency list. -/
def adddeps (ts : List Task) (tname : String) (s : String) : List Task :=
  (strtokComma s).foldl (fun ts d =>
    updTask (lookupcreate ts d) tname (fun t => { t with deps := d :: t.deps })) ts

/-- Whether a string is one or more decimal digits. -/
def allDigits (s : List Char) : Bool :=
  s.length > 0 && s.all (fun c => c.isDigit)

/-- Numeric value of a digit string, as `strptime` accumulates it. -/
def digitsVal (s : List Char) : Nat :=
  s.foldl (fun a c => a * 10 + (c.toNat - 48)) 0

/-- Model of the libc call `strptime(s, "%Y-%m-%d", &tm)` combined with the
full-consumption check `*ep != '\0'` of todo.c 252-253: the whole string
must be dash-separated digit fields with the month in 1..12 and the day in
1..31, the ranges `%m` and `%d` accept.  `strptime` is libc, outside the
repository; this models its documented behavior for this format. -/
def parseYmd (s : String) : Option (Int × Int × Int) :=
  match splitOn '-' s.toList with
  | [y, m, d] =>
    if allDigits y && allDigits m && allDigits d then
      let yv : Int := Int.ofNat (digitsVal y)
      let mv : Int := Int.ofNat (digitsVal m)
      let dv : Int := Int.ofNat (digitsVal d)
      if 1 ≤ mv ∧ mv ≤ 12 ∧ 1 ≤ dv ∧ dv ≤ 31 then some (yv, mv, dv) else none
    else none
  | _ => none

/-- Day number of a calendar date: `datetojulian` of util.c 76-90 (days since
the Unix epoch); `mktime` at noon in todo.c corresponds to this day count
in the day-resolution time model.  C integer division truncates toward
zero, as Lean's `Int` division does. -/
def datetojulian (y0 m0 d : Int) : Int :=
  let y := if m0 < 3 then y0 - 1 else y0
  let m := if m0 < 3 then m0 + 12 else m0
  y * 365 + y / 4 - y / 100 + y / 400 - 719468 + (m * 153 + 3) / 5 - 92 + d - 1

/-- A diagnostic printed with `warnx` (the recoverable errors). -/
inductive Warn where
  | notATask (s : String)
  | invalidDate (s : String)
  | unknownProp (s : String)
  deriving Repr, DecidableEq

/-- The function `adddue` (todo.c 239-271): parse the date; on failure warn
and leave the task untouched; on success record the date string and the
due day and, under the `-d` flag, mark a task whose deadline has already
passed as done. -/
def adddue (dflag : Bool) (today : Int) (t : Task) (s : String) : Task × List Warn :=
  match parseYmd s with
  | none => (t, [.invalidDate s])
  | some (y, m, d) =>
    let due := datetojulian y m d
    let t1 := { t with date := some s, due := some due }
    let t2 := if dflag && due < today then { t1 with done := true } else t1
    (t2, [])

/-- The status scan of todo.c 287-293: an initial `TODO` is skipped, an
initial `DONE` is skipped and remembered (`strncmp`, so any continuation
of the four bytes is allowed). -/
def statusStrip (s : List Char) : Bool × List Char :=
  if s.take 4 = "TODO".toList then (false, s.drop 4)
  else if s.take 4 = "DONE".toList then (true, s.drop 4)
  else (false, s)

/-- The name scan of todo.c 298-310: look for a colon inside the first run of
non-space characters; found, the name and the rest of the line result;
stopped by a space or the end of the line, there is no task name. -/
def scanName (acc : List Char) : List Char → Option (List Char × List Char)
  | [] => none
  | c :: cs =>
    if c = ':' then some (acc.reverse, cs)
    else if cIsSpace c then none
    else scanName (c :: acc) cs

/-- The priority scan of todo.c 313-330: a parenthesized letter A, B or C
right at the front maps to +1, 0, -1. -/
def priorityScan (s : List Char) : Int × List Char :=
  match s with
  | c1 :: c2 :: c3 :: rest =>
    if c1 = '(' && 'A' ≤ c2 && c2 ≤ 'C' && c3 = ')' then
      (if c2 = 'A' then 1 else if c2 = 'C' then -1 else 0, rest)
    else (0, s)
  | _ => (0, s)

/-- Drop trailing C whitespace. -/
def rstrip (s : List Char) : List Char := (s.reverse.dropWhile cIsSpace).reverse

/-- The final run of non-space characters. -/
def lastWord (s : List Char) : List Char :=
  (s.reverse.takeWhile (fun c => !cIsSpace c)).reverse

/-- Split a word at its leftmost colon (the backward scan of todo.c 341-347
leaves `colon` at the leftmost one, each colon overwritten by NUL), the
value cut at the next colon by that NUL. -/
def splitProp (w : List Char) : Option (List Char × List Char) :=
  match w.findIdx? (fun c => c = ':') with
  | none => none
  | some i => some (w.take i, (w.drop (i + 1)).takeWhile (fun c => c ≠ ':'))

/-- The property loop of todo.c 332-363 as recursion on the region of the
buffer it still scans.  Words are taken from the right; a word with a
colon is a property, dispatched immediately (so properties are handled
right to left), and the NUL byte the C code writes just before the word
shrinks the region; a word without a colon stops the loop.  The result is
the property list in dispatch order together with the prefix that
`strlen` then sees as the description (todo.c 366): the region at the
stop, or, when the last property word starts the region, its key part. -/
def propLoopAux : Nat → List Char → List (String × String) × List Char
  | 0, region => ([], region)
  | f + 1, region =>
    let s1 := rstrip region
    if s1.length = 0 then ([], region)
    else
      let w := lastWord s1
      let pre := s1.take (s1.length - w.length)
      match splitProp w with
      | none => ([], region)
      | some (p, v) =>
        if pre.length = 0 then ([(String.mk p, String.mk v)], p)
        else
          let r := propLoopAux f (pre.take (pre.length - 1))
          ((String.mk p, String.mk v) :: r.1, r.2)

/-- The loop, with structural fuel (the region shrinks by at least one byte
per iteration, so `length + 1` steps always suffice). -/
def propLoop (region : List Char) : List (String × String) × List Char :=
  propLoopAux (region.length + 1) region

/-- Dispatch of one parsed property (todo.c 352-359): `due` goes to
`adddue`, `deps` to `adddeps`, anything else draws the unknown-property
diagnostic and changes nothing. -/
def applyProp (dflag : Bool) (today : Int) (name : String)
    (acc : List Task × List Warn) (pv : String × String) : List Task × List Warn :=
  if pv.1 = "due" then
    match findTask acc.1 name with
    | some t =>
      let r := adddue dflag today t pv.2
      (updTask acc.1 name (fun _ => r.1), acc.2 ++ r.2)
    | none => acc
  else if pv.1 = "deps" then
    (adddeps acc.1 name pv.2, acc.2)
  else
    (acc.1, acc.2 ++ [.unknownProp pv.1])

/-- The function `addtask` (todo.c 274-377) on one input line with a `NULL`
prefix: parse status, name, priority, properties (right to left) and
description, then store the task's fields — `done` is assigned last, from
the status tag, after `adddue` has run (todo.c 376). -/
def addtask (dflag : Bool) (today : Int) (ts : List Task) (line : String) :
    List Task × List Warn :=
  let s0 := line.toList.dropWhile cIsSpace
  let st := statusStrip s0
  let s1 := st.2.dropWhile cIsSpace
  match scanName [] s1 with
  | none => (ts, [.notATask (String.mk s1)])
  | some (nm, s2) =>
    let name := String.mk nm
    let ts1 := lookupcreate ts name
    let pr := priorityScan (s2.dropWhile cIsSpace)
    let pl := propLoop (pr.2.dropWhile cIsSpace)
    let res := pl.1.foldl (applyProp dflag today name) (ts1, [])
    let desc := String.mk (rstrip pl.2)
    (updTask res.1 name (fun t =>
      { t with desc := desc, init := true, pri := pr.1, visited := 0,
               nice := DEFNICE, done := st.1 }),
     res.2)

/-- The function `readtasks` (todo.c 380-402) on pre-read lines: skip the
lines whose first byte is `#`, feed the rest to `addtask`. -/
def readtasks (dflag : Bool) (today : Int) (lines : List String) :
    List Task × List Warn :=
  lines.foldl (fun acc l =>
    if l.toList.take 1 = ['#'] then acc
    else
      let r := addtask dflag today acc.1 l
      (r.1, acc.2 ++ r.2)) ([], [])

/-- The function `main` (todo.c 577-626) for one already-read input source:
read tasks, sort, print.  The number is the process exit status: `errx`
exits 1 on the fatal graph errors; otherwise `exitval` stays 0 — the
parse diagnostics above never touch it (only the out-of-scope I/O
failures do).  The output is the description list, short format. -/
def mainModel (dflag : Bool) (today : Int) (lines : List String) :
    Option (List String) × List Warn × Nat :=
  let r := readtasks dflag today lines
  match sorttasks today r.1 with
  | .ok st => (some ((output st).map (fun t => t.desc)), r.2, 0)
  | _ => (none, r.2, 1)

/-! ## Spec-side definitions

These follow the words of spec.md §4.3 and are compared against the
embedded code; they are used only on the spec side of refinement claims. -/

/-- The signed order-of-magnitude bucket of the spec: floor base-2 logarithm
of the magnitude, negated for negative values. -/
def specBucket (z : Int) : Int :=
  if z < 0 then -(Nat.log 2 (-z).toNat : Int) else (Nat.log 2 z.toNat : Int)

/-- The per-task base urgency in the words of spec.md §4.3: the bucket of
`daysLeft` (due day minus today in whole days when a due date is set, 8
otherwise) minus the numeric priority. -/
def specOwnNice (today : Int) (t : Task) : Int :=
  specBucket (match t.due with | some d => d - today | none => 8) - t.pri

/-! ## Well-formedness and the dependency relation -/

/-- Well-formedness of the registry `readtasks` hands to `sorttasks`: names
are unique (`lookupcreate` deduplicates), every dependency edge points to
a registered task (`adddeps` creates its targets), no visit marks are set
yet, and every nice field holds the `DEFNICE` value `addtask` stores. -/
def WF (ts : List Task) : Prop :=
  (ts.map (fun t => t.name)).Nodup ∧
  (∀ t ∈ ts, ∀ d ∈ t.deps, ∃ u ∈ ts, u.name = d) ∧
  (∀ t ∈ ts, t.visited = 0) ∧
  (∀ t ∈ ts, t.nice = DEFNICE)

/-- Direct dependency: the task named `x` has an edge to the task named `y`
(so `y` is a prerequisite of `x`). -/
def DependsOn (ts : List Task) (x y : String) : Prop :=
  ∃ t ∈ ts, t.name = x ∧ y ∈ t.deps

/-- Transitive prerequisite relation. -/
def DependsTrans (ts : List Task) : String → String → Prop :=
  Relation.TransGen (DependsOn ts)

/-- Some dependency cycle exists in the graph. -/
def HasCycle (ts : List Task) : Prop := ∃ n, DependsTrans ts n n

/-! ## Auxiliary notions for the invariant proofs -/

/-- Number of tasks still unvisited (the quantity the DFS fuel bounds). -/
def count0 (ts : List Task) : Nat := (ts.filter (fun t => t.visited = 0)).length

/-- Two tasks agreeing on everything except the visit mark. -/
def coreEq (t u : Task) : Prop := u = { t with visited := u.visited }

/-- Two tasks agreeing on everything except the nice field. -/
def coreN (t u : Task) : Prop := u = { t with nice := u.nice }

/-- Occurrence of `x` strictly before `y` in the list `l`. -/
def SplitBefore (l : List String) (x y : String) : Prop :=
  ∃ l₁ l₂ l₃, l = l₁ ++ x :: (l₂ ++ y :: l₃)

/-- Unique task names in the registry. -/
def NamesNodup (ts : List Task) : Prop := (ts.map (fun t => t.name)).Nodup

/-- Every dependency edge points at a registered task. -/
def DepsReg (ts : List Task) : Prop :=
  ∀ t ∈ ts, ∀ d ∈ t.deps, ∃ u, findTask ts d = some u

/-- No task is marked in progress (true between top-level visits). -/
def NoOne (ts : List Task) : Prop := ∀ t ∈ ts, t.visited ≠ 1

/-- The intrinsic invariant of the visiting state: the sorted list is
duplicate-free, marks are at most 2, the sorted list holds exactly the
finished tasks, and every finished task sits after all its dependencies. -/
def Good (st : Agenda) : Prop :=
  st.sorted.Nodup ∧
  (∀ t ∈ st.tasks, t.visited ≤ 2) ∧
  (∀ n, n ∈ st.sorted ↔ ∃ t, findTask st.tasks n = some t ∧ t.visited = 2) ∧
  (∀ t ∈ st.tasks, t.visited = 2 → ∀ d ∈ t.deps, SplitBefore st.sorted d t.name)

/-- The step of the edge loop inside `visittask` (todo.c 415-416), named for
the proofs: on a still-successful state, visit the next dependency. -/
def vstep (f : Nat) : VRes Agenda → String → VRes Agenda :=
  fun r d =>
    match r with
    | .ok s => visittask f s d
    | r => r

/-- The tail of `visittask` (todo.c 417-423), named for the proofs: on
success, mark the task finished and append it to the sorted list. -/
def vfinish (n : String) : VRes Agenda → VRes Agenda
  | .ok st2 => .ok (appendSorted (markVisited st2 n 2) n)
  | r => r

/-- The step of the edge loop inside `calcnice` (todo.c 449-453), named for
the proofs: lower the nice of dependency `d` to the nice of task `n` if
that is smaller, reading the live structures. -/
def nstep (_today : Int) (n : String) : Agenda → String → Agenda :=
  fun s d =>
    match findTask s.tasks n, findTask s.tasks d with
    | some tn, some td =>
      if tn.nice < td.nice then
        { s with tasks := updTask s.tasks d (fun u => { u with nice := tn.nice }) }
      else s
    | _, _ => s

/-- Two tasks agreeing on everything except that the nice may have
decreased (the only writes `calcnice` performs are conditional minima). -/
def decN (t u : Task) : Prop := coreN t u ∧ u.nice ≤ t.nice

/-- The facts the first pass establishes, as the second pass needs them:
unique names, registered dependency targets, a duplicate-free sorted list
holding exactly the registered tasks, every nice at the `DEFNICE` value
`addtask` stored, and each dependency placed before its dependent in the
sorted list. -/
def Staged (S : Agenda) : Prop :=
  NamesNodup S.tasks ∧ DepsReg S.tasks ∧ S.sorted.Nodup ∧
  (∀ m, m ∈ S.sorted ↔ m ∈ S.tasks.map (fun t => t.name)) ∧
  (∀ t ∈ S.tasks, t.nice = DEFNICE) ∧
  (∀ t ∈ S.tasks, ∀ d ∈ t.deps, SplitBefore S.sorted d t.name)

/-- Evolution of the visit marks across a successful visit: tasks in
progress stay in progress, finished tasks stay finished, and no task is
newly left in progress. -/
def Marks (ts ts' : List Task) : Prop :=
  ∀ m t u, findTask ts m = some t → findTask ts' m = some u →
    (t.visited = 1 → u.visited = 1) ∧ (t.visited = 2 → u.visited = 2) ∧
    (u.visited = 1 → t.visited = 1)

/-! ## Concrete inputs used by the witnesses and counterexamples -/

/-- A three-task chain: `t` depends on `x`, `x` is done and depends on
`p`; `t` and `p` are neither done nor blocked. -/
def chainTs : List Task :=
  [{ name := "t", init := true, deps := ["x"] },
   { name := "x", init := true, done := true, deps := ["p"] },
   { name := "p", init := true }]

/-- One registered task with a far deadline. -/
def farTs : List Task := [{ name := "a", init := true, due := some 20 }]

/-- The far task as `sorttasks` leaves it. -/
def farFinal : Agenda :=
  { tasks := [{ name := "a", init := true, nice := 3, visited := 2,
                due := some 20 }],
    sorted := ["a"] }

/-- Two initialized tasks depending on each other. -/
def cycTs : List Task :=
  [{ name := "q0", init := true, deps := ["q1"] },
   { name := "q1", init := true, deps := ["q0"] }]

/-- One task mentioned in a dependency list and never defined. -/
def soloUninit : List Task := [{ name := "c" }]

/-- Input lines whose registry holds both a cycle and an undefined task:
the cycle task `b` is created last, so the registry walk reaches it
first. -/
def cycUndefLines : List String := ["TODO a: y deps:c", "TODO b: x deps:b"]

/-- Input lines with one unparseable due date, one unknown property and
one malformed task line, followed by a well-formed task. -/
def warnLines : List String := ["TODO a: x due:zzz bad:1", "oops", "TODO b: fine"]

/-- A finished agenda with `a` blocked by the undone `b`. -/
def blockedAgenda : Agenda :=
  { tasks := [{ name := "a", init := true, deps := ["b"] },
              { name := "b", init := true }],
    sorted := ["b", "a"] }

/-! # Lemmas and theorems -/

/-! ## Generic list lemmas -/

theorem forall2_compose {α β γ : Type} {R : α → β → Prop} {S : β → γ → Prop}
    {T : α → γ → Prop} (h : ∀ a b c, R a b → S b c → T a c)
    {l₁ : List α} {l₂ : List β} {l₃ : List γ}
    (h12 : List.Forall₂ R l₁ l₂) (h23 : List.Forall₂ S l₂ l₃) :
    List.Forall₂ T l₁ l₃ := by
  induction h12 generalizing l₃ with
  | nil => cases h23; exact .nil
  | cons hr _ ih =>
    cases h23 with
    | cons hs hss => exact .cons (h _ _ _ hr hs) (ih hss)

theorem forall2_mem_right {α β : Type} {R : α → β → Prop} {l : List α}
    {l' : List β} {u : β} (h : List.Forall₂ R l l') (hu : u ∈ l') :
    ∃ t ∈ l, R t u := by
  induction h with
  | nil => cases hu
  | cons hr _ ih =>
    rcases List.mem_cons.1 hu with h' | h'
    · exact ⟨_, List.mem_cons_self _ _, h' ▸ hr⟩
    · obtain ⟨t, ht, hR⟩ := ih h'
      exact ⟨t, List.mem_cons_of_mem _ ht, hR⟩

theorem forall2_mem_left {α β : Type} {R : α → β → Prop} {l : List α}
    {l' : List β} {t : α} (h : List.Forall₂ R l l') (ht : t ∈ l) :
    ∃ u ∈ l', R t u := by
  induction h with
  | nil => cases ht
  | cons hr _ ih =>
    rcases List.mem_cons.1 ht with h' | h'
    · exact ⟨_, List.mem_cons_self _ _, h' ▸ hr⟩
    · obtain ⟨u, hu, hR⟩ := ih h'
      exact ⟨u, List.mem_cons_of_mem _ hu, hR⟩

theorem foldr_min_le_base (l : List Int) (b : Int) : l.foldr min b ≤ b := by
  induction l with
  | nil => exact le_refl b
  | cons x xs ih => exact le_trans (min_le_right _ _) ih

theorem foldr_min_le_mem {l : List Int} {x : Int} (b : Int) (h : x ∈ l) :
    l.foldr min b ≤ x := by
  induction l with
  | nil => cases h
  | cons y ys ih =>
    rcases List.mem_cons.1 h with h' | h'
    · exact h' ▸ min_le_left _ _
    · exact le_trans (min_le_right _ _) (ih h')

theorem le_foldr_min {l : List Int} {b c : Int} (hb : c ≤ b)
    (h : ∀ x ∈ l, c ≤ x) : c ≤ l.foldr min b := by
  induction l with
  | nil => exact hb
  | cons y ys ih =>
    exact le_min (h y (List.mem_cons_self _ _))
      (ih (fun x hx => h x (List.mem_cons_of_mem _ hx)))

/-! ## Lemmas on `SplitBefore` -/

theorem SplitBefore.append_right {l : List String} {x y : String}
    (h : SplitBefore l x y) (l' : List String) : SplitBefore (l ++ l') x y := by
  obtain ⟨a, b, c, rfl⟩ := h
  exact ⟨a, b, c ++ l', by simp⟩

theorem splitBefore_append_singleton {l : List String} {d n : String}
    (h : d ∈ l) : SplitBefore (l ++ [n]) d n := by
  obtain ⟨a, b, rfl⟩ := List.append_of_mem h
  exact ⟨a, b, [], by simp⟩

theorem SplitBefore.reverse {l : List String} {x y : String}
    (h : SplitBefore l x y) : SplitBefore l.reverse y x := by
  obtain ⟨a, b, c, rfl⟩ := h
  refine ⟨c.reverse, b.reverse, a.reverse, ?_⟩
  simp

theorem splitBefore_indexOf {l : List String} {x y : String} (hnd : l.Nodup)
    (h : SplitBefore l x y) : l.indexOf x < l.indexOf y := by
  obtain ⟨a, b, c, rfl⟩ := h
  rw [List.nodup_append] at hnd
  obtain ⟨-, hr, hdisj⟩ := hnd
  have hxa : x ∉ a := fun hx => hdisj hx (List.mem_cons_self _ _)
  have hyr : y ∈ x :: (b ++ y :: c) := by
    exact List.mem_cons_of_mem _ (by simp)
  have hya : y ∉ a := fun hy => hdisj hy hyr
  have hxy : x ≠ y := by
    rintro rfl
    rw [List.nodup_cons] at hr
    exact hr.1 (by simp)
  rw [List.indexOf_append_of_not_mem hxa, List.indexOf_append_of_not_mem hya,
    List.indexOf_cons_self, List.indexOf_cons_ne _ hxy]
  omega

theorem splitBefore_asymm {l : List String} {x y : String} (hnd : l.Nodup)
    (h1 : SplitBefore l x y) (h2 : SplitBefore l y x) : False :=
  lt_asymm (splitBefore_indexOf hnd h1) (splitBefore_indexOf hnd h2)

theorem splitBefore_irrefl {l : List String} {x : String} (hnd : l.Nodup)
    (h : SplitBefore l x x) : False :=
  lt_irrefl _ (splitBefore_indexOf hnd h)

/-! ## Lemmas on `findTask` and `updTask` -/

theorem findTask_name {ts : List Task} {n : String} {t : Task}
    (h : findTask ts n = some t) : t.name = n := by
  unfold findTask at h
  simpa using List.find?_some h

theorem findTask_mem {ts : List Task} {n : String} {t : Task}
    (h : findTask ts n = some t) : t ∈ ts := by
  unfold findTask at h
  exact List.mem_of_find?_eq_some h

theorem findTask_isSome_iff (ts : List Task) (n : String) :
    (∃ t, findTask ts n = some t) ↔ n ∈ ts.map (fun t => t.name) := by
  constructor
  · rintro ⟨t, h⟩
    exact List.mem_map.2 ⟨t, findTask_mem h, findTask_name h⟩
  · intro h
    obtain ⟨t, ht, rfl⟩ := List.mem_map.1 h
    have : (findTask ts t.name).isSome := by
      unfold findTask
      rw [List.find?_isSome]
      exact ⟨t, ht, by simp⟩
    exact Option.isSome_iff_exists.1 this

theorem nodup_findTask {ts : List Task} (hnd : NamesNodup ts) {t : Task}
    (ht : t ∈ ts) : findTask ts t.name = some t := by
  induction ts with
  | nil => cases ht
  | cons u us ih =>
    rw [NamesNodup, List.map_cons, List.nodup_cons] at hnd
    rcases List.mem_cons.1 ht with rfl | h'
    · unfold findTask
      rw [List.find?_cons_of_pos _ (by simp)]
    · by_cases he : u.name = t.name
      · exact absurd (he ▸ List.mem_map.2 ⟨t, h', rfl⟩) hnd.1
      · unfold findTask
        rw [List.find?_cons_of_neg _ (by simpa using he)]
        exact ih hnd.2 h'

theorem findTask_updTask (ts : List Task) (n : String) (f : Task → Task)
    (m : String) (hf : ∀ t, (f t).name = t.name) :
    findTask (updTask ts n f) m =
      (findTask ts m).map (fun t => if t.name == n then f t else t) := by
  induction ts with
  | nil => rfl
  | cons u us ih =>
    have hname : (if u.name == n then f u else u).name = u.name := by
      by_cases hn : u.name = n <;> simp [hn, hf]
    show findTask ((if u.name == n then f u else u) :: updTask us n f) m = _
    by_cases h : u.name = m
    · have hl : List.find? (fun t => t.name == m)
          ((if u.name == n then f u else u) :: updTask us n f) =
          some (if u.name == n then f u else u) :=
        List.find?_cons_of_pos _ (by rw [hname]; simp [h])
      have hr : List.find? (fun t => t.name == m) (u :: us) = some u :=
        List.find?_cons_of_pos _ (by simp [h])
      unfold findTask
      rw [hl, hr]
      simp
    · have hl : List.find? (fun t => t.name == m)
          ((if u.name == n then f u else u) :: updTask us n f) =
          List.find? (fun t => t.name == m) (updTask us n f) :=
        List.find?_cons_of_neg _ (by rw [hname]; simp [h])
      have hr : List.find? (fun t => t.name == m) (u :: us) =
          List.find? (fun t => t.name == m) us :=
        List.find?_cons_of_neg _ (by simp [h])
      unfold findTask
      rw [hl, hr]
      exact ih

theorem findTask_updTask_self {ts : List Task} {n : String} {t : Task}
    (f : Task → Task) (hf : ∀ t, (f t).name = t.name)
    (h : findTask ts n = some t) :
    findTask (updTask ts n f) n = some (f t) := by
  rw [findTask_updTask ts n f n hf, h]
  simp [findTask_name h]

theorem findTask_updTask_ne {ts : List Task} {n m : String}
    (f : Task → Task) (hf : ∀ t, (f t).name = t.name) (hm : m ≠ n) :
    findTask (updTask ts n f) m = findTask ts m := by
  rw [findTask_updTask ts n f m hf]
  cases h : findTask ts m with
  | none => rfl
  | some t =>
    have : t.name = m := findTask_name h
    simp [this, hm]

theorem updTask_map_name (ts : List Task) (n : String) (f : Task → Task)
    (hf : ∀ t, (f t).name = t.name) :
    (updTask ts n f).map (fun t => t.name) = ts.map (fun t => t.name) := by
  unfold updTask
  rw [List.map_map]
  apply List.map_congr_left
  intro t _
  by_cases h : t.name = n <;> simp [h, hf]

theorem updTask_length (ts : List Task) (n : String) (f : Task → Task) :
    (updTask ts n f).length = ts.length := by
  simp [updTask]

theorem updTask_forall2 {P : Task → Task → Prop} (ts : List Task) (n : String)
    (f : Task → Task) (hP : ∀ t, P t t) (hPf : ∀ t, t.name = n → P t (f t)) :
    List.Forall₂ P ts (updTask ts n f) := by
  induction ts with
  | nil => exact .nil
  | cons u us ih =>
    refine List.Forall₂.cons ?_ ih
    by_cases h : u.name = n <;> simp [h, hP, hPf]

theorem updTask_forall2_mem {P : Task → Task → Prop} (ts : List Task)
    (n : String) (f : Task → Task) (hP : ∀ t ∈ ts, P t t)
    (hPf : ∀ t ∈ ts, t.name = n → P t (f t)) :
    List.Forall₂ P ts (updTask ts n f) := by
  induction ts with
  | nil => exact .nil
  | cons u us ih =>
    refine List.Forall₂.cons ?_
      (ih (fun t ht => hP t (List.mem_cons_of_mem _ ht))
        (fun t ht he => hPf t (List.mem_cons_of_mem _ ht) he))
    by_cases h : u.name = n
    · simpa [h] using hPf u (List.mem_cons_self _ _) h
    · simpa [h] using hP u (List.mem_cons_self _ _)

/-! ## Equational interface for `visittask` and `pass1` -/

theorem visittask_succ (f : Nat) (st : Agenda) (n : String) :
    visittask (f + 1) st n =
      match findTask st.tasks n with
      | none => .ok st
      | some t =>
        if t.visited > 1 then .ok st
        else if t.visited = 1 then .err .cyclic
        else
          match t.deps.foldl (vstep f) (.ok (markVisited st n 1)) with
          | .ok st2 => .ok (appendSorted (markVisited st2 n 2) n)
          | r => r := rfl

theorem visittask_none {f : Nat} {st : Agenda} {n : String}
    (hf : findTask st.tasks n = none) : visittask (f + 1) st n = .ok st := by
  rw [visittask_succ]
  simp only [hf]

theorem visittask_gt {f : Nat} {st : Agenda} {n : String} {t : Task}
    (hf : findTask st.tasks n = some t) (h2 : t.visited > 1) :
    visittask (f + 1) st n = .ok st := by
  rw [visittask_succ]
  simp only [hf]
  rw [if_pos h2]

theorem visittask_one {f : Nat} {st : Agenda} {n : String} {t : Task}
    (hf : findTask st.tasks n = some t) (h1 : t.visited = 1) :
    visittask (f + 1) st n = .err .cyclic := by
  rw [visittask_succ]
  simp only [hf]
  rw [if_neg (by omega), if_pos h1]

theorem visittask_zero {f : Nat} {st : Agenda} {n : String} {t : Task}
    (hf : findTask st.tasks n = some t) (h0 : t.visited = 0) :
    visittask (f + 1) st n =
      vfinish n (t.deps.foldl (vstep f) (.ok (markVisited st n 1))) := by
  rw [visittask_succ]
  simp only [hf]
  rw [if_neg (by omega), if_neg (by omega)]
  generalize t.deps.foldl (vstep f) (.ok (markVisited st n 1)) = r
  cases r <;> rfl

theorem vfinish_ok (n : String) (s : Agenda) :
    vfinish n (.ok s) = .ok (appendSorted (markVisited s n 2) n) := rfl

theorem vfinish_err (n : String) (e : CErr) : vfinish n (.err e) = .err e := rfl

theorem vfinish_fuelOut (n : String) : vfinish n .fuelOut = .fuelOut := rfl

theorem foldl_vstep_err (f : Nat) (e : CErr) (ds : List String) :
    ds.foldl (vstep f) (.err e) = .err e := by
  induction ds with
  | nil => rfl
  | cons d ds ih => exact ih

theorem foldl_vstep_fuelOut (f : Nat) (ds : List String) :
    ds.foldl (vstep f) .fuelOut = .fuelOut := by
  induction ds with
  | nil => rfl
  | cons d ds ih => exact ih

theorem foldl_vstep_cons_ok {f : Nat} {st s1 : Agenda} {d : String}
    (ds : List String) (hv : visittask f st d = .ok s1) :
    (d :: ds).foldl (vstep f) (.ok st) = ds.foldl (vstep f) (.ok s1) := by
  rw [List.foldl_cons, show vstep f (.ok st) d = visittask f st d from rfl, hv]

theorem foldl_vstep_cons_err {f : Nat} {st : Agenda} {d : String} {e : CErr}
    (ds : List String) (hv : visittask f st d = .err e) :
    (d :: ds).foldl (vstep f) (.ok st) = .err e := by
  rw [List.foldl_cons, show vstep f (.ok st) d = visittask f st d from rfl, hv,
    foldl_vstep_err]

theorem foldl_vstep_cons_fuelOut {f : Nat} {st : Agenda} {d : String}
    (ds : List String) (hv : visittask f st d = .fuelOut) :
    (d :: ds).foldl (vstep f) (.ok st) = .fuelOut := by
  rw [List.foldl_cons, show vstep f (.ok st) d = visittask f st d from rfl, hv,
    foldl_vstep_fuelOut]

theorem pass1_nil (st : Agenda) : pass1 st [] = .ok st := rfl

theorem pass1_cons (st : Agenda) (n : String) (ns : List String) :
    pass1 st (n :: ns) =
      match findTask st.tasks n with
      | none => pass1 st ns
      | some t =>
        if ¬ t.init then .err (.undefinedTask t.name)
        else if t.visited ≠ 0 then pass1 st ns
        else
          match visittask (st.tasks.length + 1) st n with
          | .ok st' => pass1 st' ns
          | r => r := by
  rw [pass1]

theorem pass1_cons_none {st : Agenda} {n : String} (ns : List String)
    (hf : findTask st.tasks n = none) : pass1 st (n :: ns) = pass1 st ns := by
  rw [pass1_cons]
  simp only [hf]

theorem pass1_cons_uninit {st : Agenda} {n : String} {t : Task}
    (ns : List String) (hf : findTask st.tasks n = some t)
    (hi : t.init = false) :
    pass1 st (n :: ns) = .err (.undefinedTask t.name) := by
  rw [pass1_cons]
  simp only [hf]
  rw [if_pos (by simp [hi])]

theorem pass1_cons_visited {st : Agenda} {n : String} {t : Task}
    (ns : List String) (hf : findTask st.tasks n = some t)
    (hi : t.init = true) (h0 : t.visited ≠ 0) :
    pass1 st (n :: ns) = pass1 st ns := by
  rw [pass1_cons]
  simp only [hf]
  rw [if_neg (by simp [hi]), if_pos h0]

theorem pass1_cons_ok {st st2 : Agenda} {n : String} {t : Task}
    (ns : List String) (hf : findTask st.tasks n = some t)
    (hi : t.init = true) (h0 : t.visited = 0)
    (hv : visittask (st.tasks.length + 1) st n = .ok st2) :
    pass1 st (n :: ns) = pass1 st2 ns := by
  rw [pass1_cons]
  simp only [hf, hv]
  rw [if_neg (by simp [hi]), if_neg (by simp [h0])]

theorem pass1_cons_err {st : Agenda} {n : String} {t : Task} {e : CErr}
    (ns : List String) (hf : findTask st.tasks n = some t)
    (hi : t.init = true) (h0 : t.visited = 0)
    (hv : visittask (st.tasks.length + 1) st n = .err e) :
    pass1 st (n :: ns) = .err e := by
  rw [pass1_cons]
  simp only [hf, hv]
  rw [if_neg (by simp [hi]), if_neg (by simp [h0])]

theorem pass1_cons_fuelOut {st : Agenda} {n : String} {t : Task}
    (ns : List String) (hf : findTask st.tasks n = some t)
    (hi : t.init = true) (h0 : t.visited = 0)
    (hv : visittask (st.tasks.length + 1) st n = .fuelOut) :
    pass1 st (n :: ns) = .fuelOut := by
  rw [pass1_cons]
  simp only [hf, hv]
  rw [if_neg (by simp [hi]), if_neg (by simp [h0])]

/-! ## The DFS terminates: fuel accounting -/

theorem count0_le_length (ts : List Task) : count0 ts ≤ ts.length :=
  List.length_filter_le _ _

theorem count0_cons (u : Task) (us : List Task) :
    count0 (u :: us) = (if u.visited = 0 then 1 else 0) + count0 us := by
  unfold count0
  by_cases h : u.visited = 0
  · simp [List.filter_cons, h]
    omega
  · simp [List.filter_cons, h]

theorem count0_mono_of_forall2 {ts ts' : List Task}
    (h : List.Forall₂ (fun t u => u.visited = 0 → t.visited = 0) ts ts') :
    count0 ts' ≤ count0 ts := by
  induction h with
  | nil => exact le_refl _
  | @cons a b l1 l2 hr hrs ih =>
    rw [count0_cons, count0_cons]
    by_cases hb : b.visited = 0
    · rw [if_pos hb, if_pos (hr hb)]
      omega
    · rw [if_neg hb]
      by_cases ha : a.visited = 0 <;> [rw [if_pos ha]; rw [if_neg ha]] <;> omega

theorem count0_updTask_le (ts : List Task) (n : String) (v : Nat) (hv : v ≠ 0) :
    count0 (updTask ts n (fun u => { u with visited := v })) ≤ count0 ts := by
  apply count0_mono_of_forall2
  apply updTask_forall2
  · exact fun t h => h
  · intro t _ h
    exact absurd h hv

theorem count0_updTask_lt {ts : List Task} {n : String} {t : Task} {v : Nat}
    (h : findTask ts n = some t) (h0 : t.visited = 0) (hv : v ≠ 0) :
    count0 (updTask ts n (fun u => { u with visited := v })) < count0 ts := by
  induction ts with
  | nil => cases h
  | cons u us ih =>
    by_cases hu : u.name = n
    · have ht : t = u := by
        unfold findTask at h
        rw [List.find?_cons_of_pos _ (by simp [hu])] at h
        exact (Option.some.injEq _ _ ▸ h.symm)
      have hu0 : u.visited = 0 := ht ▸ h0
      have h1 : updTask (u :: us) n (fun u => { u with visited := v }) =
          ({ u with visited := v }) ::
            updTask us n (fun u => { u with visited := v }) := by
        simp [updTask, hu]
      rw [h1, count0_cons, count0_cons,
        show ({ u with visited := v } : Task).visited = v from rfl,
        if_neg hv, if_pos hu0]
      have := count0_updTask_le us n v hv
      omega
    · have h' : findTask us n = some t := by
        unfold findTask at h ⊢
        rwa [List.find?_cons_of_neg _ (by simp [hu])] at h
      have h1 : updTask (u :: us) n (fun u => { u with visited := v }) =
          u :: updTask us n (fun u => { u with visited := v }) := by
        simp [updTask, hu]
      rw [h1, count0_cons, count0_cons]
      have := ih h'
      omega

theorem visittask_count :
    ∀ (fuel : Nat) (st : Agenda) (n : String) (st' : Agenda),
      visittask fuel st n = .ok st' →
      count0 st'.tasks ≤ count0 st.tasks ∧ st'.tasks.length = st.tasks.length := by
  intro fuel
  induction fuel with
  | zero => intro st n st' h; cases h
  | succ f ih =>
    have hfold : ∀ (ds : List String) (st st' : Agenda),
        ds.foldl (vstep f) (.ok st) = .ok st' →
        count0 st'.tasks ≤ count0 st.tasks ∧
          st'.tasks.length = st.tasks.length := by
      intro ds
      induction ds with
      | nil =>
        intro st st' h
        cases h
        exact ⟨le_refl _, rfl⟩
      | cons d ds ihd =>
        intro st st' h
        cases hv : visittask f st d with
        | ok s1 =>
          rw [foldl_vstep_cons_ok ds hv] at h
          obtain ⟨hc1, hl1⟩ := ih st d s1 hv
          obtain ⟨hc2, hl2⟩ := ihd s1 st' h
          exact ⟨le_trans hc2 hc1, hl2.trans hl1⟩
        | err e =>
          rw [foldl_vstep_cons_err ds hv] at h
          cases h
        | fuelOut =>
          rw [foldl_vstep_cons_fuelOut ds hv] at h
          cases h
    intro st n st' h
    cases hf : findTask st.tasks n with
    | none =>
      rw [visittask_none hf] at h
      cases h
      exact ⟨le_refl _, rfl⟩
    | some t =>
      rcases Nat.lt_or_ge 1 t.visited with h2 | hle
      · rw [visittask_gt hf h2] at h
        cases h
        exact ⟨le_refl _, rfl⟩
      · by_cases h1 : t.visited = 1
        · rw [visittask_one hf h1] at h
          cases h
        · have h0 : t.visited = 0 := by omega
          rw [visittask_zero hf h0] at h
          cases hfd : t.deps.foldl (vstep f) (.ok (markVisited st n 1)) with
          | ok st2 =>
            rw [hfd, vfinish_ok] at h
            cases h
            have hm1 : count0 (markVisited st n 1).tasks ≤ count0 st.tasks :=
              count0_updTask_le _ _ _ (by omega)
            obtain ⟨hc, hl⟩ := hfold t.deps _ _ hfd
            constructor
            · calc count0 (appendSorted (markVisited st2 n 2) n).tasks
                  = count0 (updTask st2.tasks n
                      (fun u => { u with visited := 2 })) := rfl
                _ ≤ count0 st2.tasks := count0_updTask_le _ _ _ (by omega)
                _ ≤ count0 (markVisited st n 1).tasks := hc
                _ ≤ count0 st.tasks := hm1
            · calc (appendSorted (markVisited st2 n 2) n).tasks.length
                  = st2.tasks.length := updTask_length _ _ _
                _ = (markVisited st n 1).tasks.length := hl
                _ = st.tasks.length := updTask_length _ _ _
          | err e =>
            rw [hfd, vfinish_err] at h
            cases h
          | fuelOut =>
            rw [hfd, vfinish_fuelOut] at h
            cases h

theorem visittask_ne_fuelOut :
    ∀ (fuel : Nat) (st : Agenda) (n : String),
      count0 st.tasks < fuel → visittask fuel st n ≠ .fuelOut := by
  intro fuel
  induction fuel with
  | zero => intro st n hc; omega
  | succ f ih =>
    intro st n hc h
    cases hf : findTask st.tasks n with
    | none => rw [visittask_none hf] at h; cases h
    | some t =>
      rcases Nat.lt_or_ge 1 t.visited with h2 | hle
      · rw [visittask_gt hf h2] at h
        cases h
      · by_cases h1 : t.visited = 1
        · rw [visittask_one hf h1] at h
          cases h
        · have h0 : t.visited = 0 := by omega
          rw [visittask_zero hf h0] at h
          have hlt : count0 (markVisited st n 1).tasks < count0 st.tasks :=
            count0_updTask_lt hf h0 (by omega)
          have hmain : ∀ (ds : List String) (s : Agenda), count0 s.tasks < f →
              ds.foldl (vstep f) (.ok s) ≠ .fuelOut := by
            intro ds
            induction ds with
            | nil => intro s _ hh; cases hh
            | cons d ds ihd =>
              intro s hcs hh
              cases hv : visittask f s d with
              | ok s1 =>
                rw [foldl_vstep_cons_ok ds hv] at hh
                have := (visittask_count f s d s1 hv).1
                exact ihd s1 (lt_of_le_of_lt this hcs) hh
              | err e =>
                rw [foldl_vstep_cons_err ds hv] at hh
                cases hh
              | fuelOut => exact ih s d hcs hv
          cases hfd : t.deps.foldl (vstep f) (.ok (markVisited st n 1)) with
          | ok st2 => rw [hfd, vfinish_ok] at h; cases h
          | err e => rw [hfd, vfinish_err] at h; cases h
          | fuelOut =>
            exact hmain t.deps (markVisited st n 1) (by omega) hfd

theorem pass1_ne_fuelOut : ∀ (ns : List String) (st : Agenda),
    pass1 st ns ≠ .fuelOut := by
  intro ns
  induction ns with
  | nil => intro st h; cases h
  | cons n ns ih =>
    intro st h
    cases hf : findTask st.tasks n with
    | none =>
      rw [pass1_cons_none ns hf] at h
      exact ih st h
    | some t =>
      by_cases hi : t.init
      · by_cases h0 : t.visited = 0
        · cases hv : visittask (st.tasks.length + 1) st n with
          | ok st' =>
            rw [pass1_cons_ok ns hf hi h0 hv] at h
            exact ih st' h
          | err e =>
            rw [pass1_cons_err ns hf hi h0 hv] at h
            cases h
          | fuelOut =>
            exact visittask_ne_fuelOut _ st n
              (lt_of_le_of_lt (count0_le_length st.tasks) (by omega)) hv
        · rw [pass1_cons_visited ns hf hi h0] at h
          exact ih st h
      · rw [pass1_cons_uninit ns hf (by simpa using hi)] at h
        cases h

/-! ## Frame lemmas: `visittask` changes only visit marks and the sorted list -/

theorem coreEq_refl (t : Task) : coreEq t t := rfl

theorem coreEq_trans {a b c : Task} (h1 : coreEq a b) (h2 : coreEq b c) :
    coreEq a c := by
  unfold coreEq at *
  rw [h1] at h2
  exact h2

theorem coreEq_name {t u : Task} (h : coreEq t u) : u.name = t.name := by
  rw [h]

theorem coreEq_init {t u : Task} (h : coreEq t u) : u.init = t.init := by
  rw [h]

theorem coreEq_nice {t u : Task} (h : coreEq t u) : u.nice = t.nice := by
  rw [h]

theorem coreEq_deps {t u : Task} (h : coreEq t u) : u.deps = t.deps := by
  rw [h]

theorem coreEq_due {t u : Task} (h : coreEq t u) : u.due = t.due := by
  rw [h]

theorem coreEq_pri {t u : Task} (h : coreEq t u) : u.pri = t.pri := by
  rw [h]

theorem coreEq_done {t u : Task} (h : coreEq t u) : u.done = t.done := by
  rw [h]

theorem frame_map_name {ts ts' : List Task}
    (h : List.Forall₂ coreEq ts ts') :
    ts'.map (fun t => t.name) = ts.map (fun t => t.name) := by
  induction h with
  | nil => rfl
  | cons hr _ ih => simp [coreEq_name hr, ih]

theorem namesNodup_of_frame {ts ts' : List Task}
    (h : List.Forall₂ coreEq ts ts') (hnd : NamesNodup ts) :
    NamesNodup ts' := by
  unfold NamesNodup at *
  rw [frame_map_name h]
  exact hnd

theorem findTask_frame {ts ts' : List Task}
    (h : List.Forall₂ coreEq ts ts') (m : String) :
    (findTask ts m = none → findTask ts' m = none) ∧
    (∀ t, findTask ts m = some t →
      ∃ u, findTask ts' m = some u ∧ coreEq t u) := by
  induction h with
  | nil => exact ⟨fun _ => rfl, fun t ht => by cases ht⟩
  | @cons a b l1 l2 hr hrs ih =>
    by_cases hm : a.name = m
    · constructor
      · intro hn
        unfold findTask at hn
        rw [List.find?_cons_of_pos _ (by simp [hm])] at hn
        cases hn
      · intro t ht
        unfold findTask at ht ⊢
        rw [List.find?_cons_of_pos _ (by simp [hm])] at ht
        rw [List.find?_cons_of_pos _ (by simp [coreEq_name hr, hm])]
        cases ht
        exact ⟨b, rfl, hr⟩
    · constructor
      · intro hn
        unfold findTask at hn ⊢
        rw [List.find?_cons_of_neg _ (by simp [hm])] at hn
        rw [List.find?_cons_of_neg _ (by simp [coreEq_name hr, hm])]
        exact ih.1 hn
      · intro t ht
        unfold findTask at ht ⊢
        rw [List.find?_cons_of_neg _ (by simp [hm])] at ht
        rw [List.find?_cons_of_neg _ (by simp [coreEq_name hr, hm])]
        exact ih.2 t ht

theorem depsReg_of_frame {ts ts' : List Task}
    (h : List.Forall₂ coreEq ts ts') (hd : DepsReg ts) : DepsReg ts' := by
  intro t' ht' d hdd
  obtain ⟨t, ht, hc⟩ := forall2_mem_right h ht'
  rw [coreEq_deps hc] at hdd
  obtain ⟨u, hu⟩ := hd t ht d hdd
  obtain ⟨w, hw, -⟩ := (findTask_frame h d).2 u hu
  exact ⟨w, hw⟩

theorem forall2_coreEq_trans {l1 l2 l3 : List Task}
    (h12 : List.Forall₂ coreEq l1 l2) (h23 : List.Forall₂ coreEq l2 l3) :
    List.Forall₂ coreEq l1 l3 :=
  @forall2_compose Task Task Task coreEq coreEq coreEq
    (fun _ _ _ h1 h2 => coreEq_trans h1 h2) l1 l2 l3 h12 h23

theorem forall2_coreEq_refl (ts : List Task) : List.Forall₂ coreEq ts ts := by
  induction ts with
  | nil => exact .nil
  | cons t ts ih => exact .cons (coreEq_refl t) ih

theorem markVisited_frame (st : Agenda) (n : String) (v : Nat) :
    List.Forall₂ coreEq st.tasks (markVisited st n v).tasks := by
  apply updTask_forall2
  · exact coreEq_refl
  · intro t _
    rfl

theorem mem_unique_of_namesNodup {ts : List Task} (hnd : NamesNodup ts)
    {t u : Task} (ht : t ∈ ts) (hu : u ∈ ts) (he : t.name = u.name) :
    t = u := by
  have h1 : findTask ts t.name = some t := nodup_findTask hnd ht
  have h2 : findTask ts t.name = some u := he ▸ nodup_findTask hnd hu
  rw [h1] at h2
  exact Option.some.inj h2

theorem visittask_frame :
    ∀ (fuel : Nat) (st : Agenda) (n : String) (st' : Agenda),
      visittask fuel st n = .ok st' →
      List.Forall₂ coreEq st.tasks st'.tasks ∧
      ∃ l, st'.sorted = st.sorted ++ l := by
  intro fuel
  induction fuel with
  | zero => intro st n st' h; cases h
  | succ f ih =>
    have hfold : ∀ (ds : List String) (st st' : Agenda),
        ds.foldl (vstep f) (.ok st) = .ok st' →
        List.Forall₂ coreEq st.tasks st'.tasks ∧
        ∃ l, st'.sorted = st.sorted ++ l := by
      intro ds
      induction ds with
      | nil =>
        intro st st' h
        cases h
        exact ⟨forall2_coreEq_refl _, [], by simp⟩
      | cons d ds ihd =>
        intro st st' h
        cases hv : visittask f st d with
        | ok s1 =>
          rw [foldl_vstep_cons_ok ds hv] at h
          obtain ⟨hf1, l1, hl1⟩ := ih st d s1 hv
          obtain ⟨hf2, l2, hl2⟩ := ihd s1 st' h
          exact ⟨forall2_coreEq_trans hf1 hf2,
            l1 ++ l2, by rw [hl2, hl1, List.append_assoc]⟩
        | err e => rw [foldl_vstep_cons_err ds hv] at h; cases h
        | fuelOut => rw [foldl_vstep_cons_fuelOut ds hv] at h; cases h
    intro st n st' h
    cases hf : findTask st.tasks n with
    | none =>
      rw [visittask_none hf] at h
      cases h
      exact ⟨forall2_coreEq_refl _, [], by simp⟩
    | some t =>
      rcases Nat.lt_or_ge 1 t.visited with h2 | hle
      · rw [visittask_gt hf h2] at h
        cases h
        exact ⟨forall2_coreEq_refl _, [], by simp⟩
      · by_cases h1 : t.visited = 1
        · rw [visittask_one hf h1] at h
          cases h
        · have h0 : t.visited = 0 := by omega
          rw [visittask_zero hf h0] at h
          cases hfd : t.deps.foldl (vstep f) (.ok (markVisited st n 1)) with
          | ok st2 =>
            rw [hfd, vfinish_ok] at h
            cases h
            obtain ⟨hf2, l2, hl2⟩ := hfold t.deps _ _ hfd
            refine ⟨?_, l2 ++ [n], ?_⟩
            · have c1 : List.Forall₂ coreEq st.tasks (markVisited st n 1).tasks :=
                markVisited_frame st n 1
              have c2 : List.Forall₂ coreEq st2.tasks
                  (markVisited st2 n 2).tasks := markVisited_frame st2 n 2
              exact forall2_coreEq_trans (forall2_coreEq_trans c1 hf2) c2
            · show st2.sorted ++ [n] = st.sorted ++ (l2 ++ [n])
              rw [hl2]
              show (markVisited st n 1).sorted ++ l2 ++ [n] = _
              simp [markVisited]
          | err e => rw [hfd, vfinish_err] at h; cases h
          | fuelOut => rw [hfd, vfinish_fuelOut] at h; cases h

/-! ## The DFS invariant: the sorted list is a duplicate-free topological
order of the finished tasks -/

theorem markVisited_sorted (st : Agenda) (n : String) (v : Nat) :
    (markVisited st n v).sorted = st.sorted := rfl

theorem appendSorted_sorted (st : Agenda) (n : String) :
    (appendSorted st n).sorted = st.sorted ++ [n] := rfl

theorem appendSorted_tasks (st : Agenda) (n : String) :
    (appendSorted st n).tasks = st.tasks := rfl

theorem marks_refl (ts : List Task) : Marks ts ts := by
  intro m t u h1 h2
  rw [h1] at h2
  cases h2
  exact ⟨id, id, id⟩

theorem marks_trans {ts1 ts2 ts3 : List Task}
    (hfr : List.Forall₂ coreEq ts1 ts2) (m12 : Marks ts1 ts2)
    (m23 : Marks ts2 ts3) : Marks ts1 ts3 := by
  intro m t u h1 h3
  obtain ⟨w, h2, -⟩ := (findTask_frame hfr m).2 t h1
  obtain ⟨a1, a2, a3⟩ := m12 m t w h1 h2
  obtain ⟨b1, b2, b3⟩ := m23 m w u h2 h3
  exact ⟨fun h => b1 (a1 h), fun h => b2 (a2 h), fun h => a3 (b3 h)⟩

theorem visittask_good :
    ∀ (fuel : Nat) (st : Agenda) (n : String) (st' : Agenda),
      visittask fuel st n = .ok st' →
      NamesNodup st.tasks → DepsReg st.tasks → Good st →
      Good st' ∧ Marks st.tasks st'.tasks ∧
      (∀ t, findTask st.tasks n = some t →
        ∃ u, findTask st'.tasks n = some u ∧ u.visited = 2) := by
  intro fuel
  induction fuel with
  | zero => intro st n st' h; cases h
  | succ f ih =>
    have hfold : ∀ (ds : List String) (s s' : Agenda),
        ds.foldl (vstep f) (.ok s) = .ok s' →
        NamesNodup s.tasks → DepsReg s.tasks → Good s →
        Good s' ∧ Marks s.tasks s'.tasks ∧
        List.Forall₂ coreEq s.tasks s'.tasks ∧
        (∀ d ∈ ds, ∀ t, findTask s.tasks d = some t →
          ∃ u, findTask s'.tasks d = some u ∧ u.visited = 2) := by
      intro ds
      induction ds with
      | nil =>
        intro s s' h hnd hdr hg
        cases h
        exact ⟨hg, marks_refl _, forall2_coreEq_refl _, fun d hd => by cases hd⟩
      | cons d ds ihd =>
        intro s s' h hnd hdr hg
        cases hv : visittask f s d with
        | ok s1 =>
          rw [foldl_vstep_cons_ok ds hv] at h
          obtain ⟨hg1, hm1, hn1⟩ := ih s d s1 hv hnd hdr hg
          have hfr1 : List.Forall₂ coreEq s.tasks s1.tasks :=
            (visittask_frame f s d s1 hv).1
          obtain ⟨hg2, hm2, hfr2, hd2⟩ := ihd s1 s' h
            (namesNodup_of_frame hfr1 hnd) (depsReg_of_frame hfr1 hdr) hg1
          refine ⟨hg2, marks_trans hfr1 hm1 hm2,
            forall2_coreEq_trans hfr1 hfr2, ?_⟩
          intro d' hd' t ht
          rcases List.mem_cons.1 hd' with rfl | hd''
          · obtain ⟨u1, hu1, hu12⟩ := hn1 t ht
            obtain ⟨u', hu', -⟩ := (findTask_frame hfr2 d').2 u1 hu1
            obtain ⟨-, b2, -⟩ := hm2 d' u1 u' hu1 hu'
            exact ⟨u', hu', b2 hu12⟩
          · obtain ⟨w, hw, -⟩ := (findTask_frame hfr1 d').2 t ht
            exact hd2 d' hd'' w hw
        | err e => rw [foldl_vstep_cons_err ds hv] at h; cases h
        | fuelOut => rw [foldl_vstep_cons_fuelOut ds hv] at h; cases h
    intro st n st' h hnd hdr hg
    obtain ⟨g1, g2, g3, g4⟩ := hg
    cases hf : findTask st.tasks n with
    | none =>
      rw [visittask_none hf] at h
      cases h
      refine ⟨⟨g1, g2, g3, g4⟩, marks_refl _, ?_⟩
      intro t ht
      cases ht
    | some t =>
      rcases Nat.lt_or_ge 1 t.visited with h2 | hle
      · rw [visittask_gt hf h2] at h
        cases h
        refine ⟨⟨g1, g2, g3, g4⟩, marks_refl _, ?_⟩
        intro t' ht'
        cases ht'
        have : t.visited ≤ 2 := g2 t (findTask_mem hf)
        exact ⟨t, hf, by omega⟩
      · by_cases h1 : t.visited = 1
        · rw [visittask_one hf h1] at h
          cases h
        · have h0 : t.visited = 0 := by omega
          rw [visittask_zero hf h0] at h
          cases hfd : t.deps.foldl (vstep f)
              (.ok (markVisited st n 1)) with
          | err e => rw [hfd, vfinish_err] at h; cases h
          | fuelOut => rw [hfd, vfinish_fuelOut] at h; cases h
          | ok st2 =>
            rw [hfd, vfinish_ok] at h
            cases h
            -- the state after marking `n` in progress
            have hfA : List.Forall₂ coreEq st.tasks
                (markVisited st n 1).tasks := markVisited_frame st n 1
            have findA_n : findTask (markVisited st n 1).tasks n =
                some { t with visited := 1 } :=
              findTask_updTask_self _ (fun _ => rfl) hf
            have findA_ne : ∀ m, m ≠ n →
                findTask (markVisited st n 1).tasks m = findTask st.tasks m :=
              fun m hm => findTask_updTask_ne _ (fun _ => rfl) hm
            have hPA : List.Forall₂
                (fun t u => u = t ∨ (t.name = n ∧ u = { t with visited := 1 }))
                st.tasks (markVisited st n 1).tasks :=
              updTask_forall2 _ _ _ (fun _ => Or.inl rfl)
                (fun t ht => Or.inr ⟨ht, rfl⟩)
            have hnotmem : n ∉ st.sorted := by
              intro hmem
              obtain ⟨w, hw, hw2⟩ := (g3 n).1 hmem
              rw [hf] at hw
              cases hw
              omega
            have hgA : Good (markVisited st n 1) := by
              refine ⟨g1, ?_, ?_, ?_⟩
              · intro u hu
                obtain ⟨t0, ht0, hrel⟩ := forall2_mem_right hPA hu
                rcases hrel with rfl | ⟨-, rfl⟩
                · exact g2 u ht0
                · show (1 : Nat) ≤ 2
                  omega
              · intro m
                by_cases hm : m = n
                · subst hm
                  rw [markVisited_sorted]
                  constructor
                  · intro hmem
                    exact absurd hmem hnotmem
                  · rintro ⟨u, hu, hu2⟩
                    rw [findA_n] at hu
                    cases hu
                    simp at hu2
                · rw [markVisited_sorted, findA_ne m hm]
                  exact g3 m
              · intro u hu hu2 d hd
                obtain ⟨t0, ht0, hrel⟩ := forall2_mem_right hPA hu
                rcases hrel with rfl | ⟨-, rfl⟩
                · rw [markVisited_sorted]
                  exact g4 u ht0 hu2 d hd
                · simp at hu2
            obtain ⟨hg2', hm2', hfr2', hd2'⟩ := hfold t.deps _ _ hfd
              (namesNodup_of_frame hfA hnd) (depsReg_of_frame hfA hdr) hgA
            obtain ⟨g1', g2', g3', g4'⟩ := hg2'
            -- the task `n` is still in progress after the dependency loop
            obtain ⟨u2, hu2find, hu2core⟩ :=
              (findTask_frame hfr2' n).2 _ findA_n
            have hu2vis : u2.visited = 1 :=
              (hm2' n _ u2 findA_n hu2find).1 rfl
            have hu2name : u2.name = n := findTask_name hu2find
            have hu2deps : u2.deps = t.deps := coreEq_deps hu2core
            have hnot2 : n ∉ st2.sorted := by
              intro hmem
              obtain ⟨w, hw, hw2⟩ := (g3' n).1 hmem
              rw [hu2find] at hw
              cases hw
              omega
            have hnd2 : NamesNodup st2.tasks :=
              namesNodup_of_frame hfr2' (namesNodup_of_frame hfA hnd)
            have find3_n : findTask
                (markVisited st2 n 2).tasks n = some { u2 with visited := 2 } :=
              findTask_updTask_self _ (fun _ => rfl) hu2find
            have find3_ne : ∀ m, m ≠ n →
                findTask (markVisited st2 n 2).tasks m =
                  findTask st2.tasks m :=
              fun m hm => findTask_updTask_ne _ (fun _ => rfl) hm
            have hP3 : List.Forall₂
                (fun t u => u = t ∨ (t.name = n ∧ u = { t with visited := 2 }))
                st2.tasks (markVisited st2 n 2).tasks :=
              updTask_forall2 _ _ _ (fun _ => Or.inl rfl)
                (fun t ht => Or.inr ⟨ht, rfl⟩)
            -- dependencies of `n` end finished and recorded in the sorted list
            have hdep2 : ∀ d ∈ t.deps,
                ∃ u, findTask st2.tasks d = some u ∧ u.visited = 2 := by
              intro d hd
              obtain ⟨w0, hw0⟩ := hdr t (findTask_mem hf) d hd
              obtain ⟨w, hw, -⟩ := (findTask_frame hfA d).2 w0 hw0
              exact hd2' d hd w hw
            refine ⟨⟨?_, ?_, ?_, ?_⟩, ?_, ?_⟩
            · -- nodup of the extended sorted list
              rw [appendSorted_sorted, markVisited_sorted]
              refine List.Nodup.append g1' (List.nodup_singleton n) ?_
              intro x hx hx'
              rw [List.mem_singleton] at hx'
              subst hx'
              exact hnot2 hx
            · -- marks stay at most 2
              intro u hu
              rw [appendSorted_tasks] at hu
              obtain ⟨t0, ht0, hrel⟩ := forall2_mem_right hP3 hu
              rcases hrel with rfl | ⟨-, rfl⟩
              · exact g2' u ht0
              · exact le_refl 2
            · -- the sorted list holds exactly the finished tasks
              intro m
              rw [appendSorted_sorted, markVisited_sorted, appendSorted_tasks]
              by_cases hm : m = n
              · subst hm
                constructor
                · intro _
                  exact ⟨_, find3_n, rfl⟩
                · intro _
                  simp
              · rw [find3_ne m hm]
                constructor
                · intro hmem
                  rcases List.mem_append.1 hmem with hmem | hmem
                  · exact (g3' m).1 hmem
                  · rw [List.mem_singleton] at hmem
                    exact absurd hmem hm
                · intro hex
                  exact List.mem_append.2 (Or.inl ((g3' m).2 hex))
            · -- topological property of the extended sorted list
              intro u hu hu2 d hd
              rw [appendSorted_sorted, markVisited_sorted]
              rw [appendSorted_tasks] at hu
              obtain ⟨t0, ht0, hrel⟩ := forall2_mem_right hP3 hu
              rcases hrel with rfl | ⟨hname, rfl⟩
              · by_cases hm : u.name = n
                · have heq : u = u2 :=
                    mem_unique_of_namesNodup hnd2 ht0 (findTask_mem hu2find)
                      (by rw [hm, hu2name])
                  subst heq
                  omega
                · have := g4' u ht0 hu2 d hd
                  exact this.append_right [n]
              · have ht0u2 : t0 = u2 :=
                  mem_unique_of_namesNodup hnd2 ht0 (findTask_mem hu2find)
                    (by rw [hname, hu2name])
                subst ht0u2
                show SplitBefore (st2.sorted ++ [n]) d
                  ({ t0 with visited := 2 } : Task).name
                have hdt : d ∈ t.deps := by
                  have : ({ t0 with visited := 2 } : Task).deps = t.deps := by
                    show t0.deps = t.deps
                    rw [hu2deps]
                  rwa [this] at hd
                obtain ⟨w, hw, hw2⟩ := hdep2 d hdt
                have hdmem : d ∈ st2.sorted := (g3' d).2 ⟨w, hw, hw2⟩
                have : ({ t0 with visited := 2 } : Task).name = n := by
                  show t0.name = n
                  rw [hu2name]
                rw [this]
                exact splitBefore_append_singleton hdmem
            · -- marks evolve correctly from the initial state
              intro m t0 u' ht0 hu'
              rw [appendSorted_tasks] at hu'
              by_cases hm : m = n
              · subst hm
                rw [hf] at ht0
                cases ht0
                rw [find3_n] at hu'
                cases hu'
                refine ⟨?_, ?_, ?_⟩
                · intro hx; omega
                · intro hx; omega
                · intro hx; simp at hx
              · rw [find3_ne m hm] at hu'
                have hAm : findTask (markVisited st n 1).tasks m =
                    some t0 := by rw [findA_ne m hm]; exact ht0
                exact hm2' m t0 u' hAm hu'
            · -- the visited task ends finished
              intro t' ht'
              rw [appendSorted_tasks]
              exact ⟨_, find3_n, rfl⟩

/-! ## The first pass: aggregated invariants -/

theorem noOne_of_marks {ts ts' : List Task} (hnd : NamesNodup ts)
    (hfr : List.Forall₂ coreEq ts ts') (hm : Marks ts ts')
    (h1 : NoOne ts) : NoOne ts' := by
  intro u hu hv1
  obtain ⟨t, ht, hc⟩ := forall2_mem_right hfr hu
  have hfind : findTask ts t.name = some t := nodup_findTask hnd ht
  have hfind' : findTask ts' t.name = some u := by
    have he : u.name = t.name := coreEq_name hc
    have := nodup_findTask (namesNodup_of_frame hfr hnd) hu
    rwa [he] at this
  exact h1 t ht ((hm t.name t u hfind hfind').2.2 hv1)

theorem pass1_good :
    ∀ (ns : List String) (st st' : Agenda),
      pass1 st ns = .ok st' →
      NamesNodup st.tasks → DepsReg st.tasks → Good st → NoOne st.tasks →
      Good st' ∧ List.Forall₂ coreEq st.tasks st'.tasks ∧
      Marks st.tasks st'.tasks ∧ NoOne st'.tasks ∧
      (∀ n ∈ ns, ∀ t, findTask st.tasks n = some t →
        t.init = true ∧ ∃ u, findTask st'.tasks n = some u ∧ u.visited = 2) := by
  intro ns
  induction ns with
  | nil =>
    intro st st' h hnd hdr hg hno
    cases h
    exact ⟨hg, forall2_coreEq_refl _, marks_refl _, hno,
      fun n hn => by cases hn⟩
  | cons n ns ih =>
    intro st st' h hnd hdr hg hno
    cases hf : findTask st.tasks n with
    | none =>
      rw [pass1_cons_none ns hf] at h
      obtain ⟨c1, c2, c3, c4, c5⟩ := ih st st' h hnd hdr hg hno
      refine ⟨c1, c2, c3, c4, ?_⟩
      intro n' hn' t ht
      rcases List.mem_cons.1 hn' with rfl | hn''
      · rw [hf] at ht
        cases ht
      · exact c5 n' hn'' t ht
    | some t =>
      by_cases hi : t.init
      · by_cases h0 : t.visited = 0
        · cases hv : visittask (st.tasks.length + 1) st n with
          | ok st2 =>
            rw [pass1_cons_ok ns hf hi h0 hv] at h
            obtain ⟨hg2, hm2, hn2⟩ := visittask_good _ st n st2 hv hnd hdr hg
            have hfr2 : List.Forall₂ coreEq st.tasks st2.tasks :=
              (visittask_frame _ st n st2 hv).1
            have hnd2 : NamesNodup st2.tasks := namesNodup_of_frame hfr2 hnd
            have hdr2 : DepsReg st2.tasks := depsReg_of_frame hfr2 hdr
            have hno2 : NoOne st2.tasks := noOne_of_marks hnd hfr2 hm2 hno
            obtain ⟨c1, c2, c3, c4, c5⟩ := ih st2 st' h hnd2 hdr2 hg2 hno2
            refine ⟨c1, forall2_coreEq_trans hfr2 c2,
              marks_trans hfr2 hm2 c3, c4, ?_⟩
            intro n' hn' t0 ht0
            rcases List.mem_cons.1 hn' with rfl | hn''
            · rw [hf] at ht0
              cases ht0
              refine ⟨hi, ?_⟩
              obtain ⟨u2, hu2, hu2v⟩ := hn2 t hf
              obtain ⟨u', hu', -⟩ := (findTask_frame c2 n').2 u2 hu2
              obtain ⟨-, b2, -⟩ := c3 n' u2 u' hu2 hu'
              exact ⟨u', hu', b2 hu2v⟩
            · obtain ⟨w, hw, hwc⟩ := (findTask_frame hfr2 n').2 t0 ht0
              obtain ⟨hwi, u', hu', hu'2⟩ := c5 n' hn'' w hw
              refine ⟨?_, u', hu', hu'2⟩
              rw [← coreEq_init hwc]
              exact hwi
          | err e =>
            rw [pass1_cons_err ns hf hi h0 hv] at h
            cases h
          | fuelOut =>
            rw [pass1_cons_fuelOut ns hf hi h0 hv] at h
            cases h
        · rw [pass1_cons_visited ns hf hi h0] at h
          obtain ⟨c1, c2, c3, c4, c5⟩ := ih st st' h hnd hdr hg hno
          refine ⟨c1, c2, c3, c4, ?_⟩
          intro n' hn' t0 ht0
          rcases List.mem_cons.1 hn' with rfl | hn''
          · rw [hf] at ht0
            cases ht0
            refine ⟨hi, ?_⟩
            have hv2 : t.visited = 2 := by
              have hle := hg.2.1 t (findTask_mem hf)
              have hne := hno t (findTask_mem hf)
              omega
            obtain ⟨u', hu', -⟩ := (findTask_frame c2 n').2 t hf
            obtain ⟨-, b2, -⟩ := c3 n' t u' hf hu'
            exact ⟨u', hu', b2 hv2⟩
          · exact c5 n' hn'' t0 ht0
      · rw [pass1_cons_uninit ns hf (by simpa using hi)] at h
        cases h

/-! ## Packaging: from `sorttasks` success to the topological facts -/

theorem sorttasks_of_pass1_ok {today : Int} {ts : List Task} {st : Agenda}
    (h : pass1 { tasks := ts, sorted := [] } (ts.map (fun t => t.name)) = .ok st) :
    sorttasks today ts = .ok (pass2 today st) := by
  unfold sorttasks
  rw [h]

theorem sorttasks_of_pass1_err {today : Int} {ts : List Task} {e : CErr}
    (h : pass1 { tasks := ts, sorted := [] } (ts.map (fun t => t.name)) = .err e) :
    sorttasks today ts = .err e := by
  unfold sorttasks
  rw [h]

theorem sorttasks_of_pass1_fuelOut {today : Int} {ts : List Task}
    (h : pass1 { tasks := ts, sorted := [] } (ts.map (fun t => t.name)) = .fuelOut) :
    sorttasks today ts = .fuelOut := by
  unfold sorttasks
  rw [h]

theorem sorttasks_ok_inv {today : Int} {ts : List Task} {A : Agenda}
    (h : sorttasks today ts = .ok A) :
    ∃ st, pass1 { tasks := ts, sorted := [] } (ts.map (fun t => t.name)) = .ok st ∧
      A = pass2 today st := by
  cases hp : pass1 { tasks := ts, sorted := [] } (ts.map (fun t => t.name)) with
  | ok st =>
    rw [sorttasks_of_pass1_ok hp] at h
    refine ⟨st, rfl, ?_⟩
    exact (VRes.ok.inj h).symm
  | err e => rw [sorttasks_of_pass1_err hp] at h; cases h
  | fuelOut => rw [sorttasks_of_pass1_fuelOut hp] at h; cases h

theorem depsReg_of_WF {ts : List Task} (h : WF ts) : DepsReg ts := by
  intro t ht d hd
  obtain ⟨u, hu, he⟩ := h.2.1 t ht d hd
  exact (findTask_isSome_iff ts d).2 (List.mem_map.2 ⟨u, hu, he⟩)

theorem good_init {ts : List Task} (h0 : ∀ t ∈ ts, t.visited = 0) :
    Good { tasks := ts, sorted := [] } := by
  refine ⟨List.nodup_nil, ?_, ?_, ?_⟩
  · intro t ht
    rw [h0 t ht]
    omega
  · intro n
    constructor
    · intro hn
      cases hn
    · rintro ⟨t, ht, h2⟩
      rw [h0 t (findTask_mem ht)] at h2
      cases h2
  · intro t ht h2
    rw [h0 t ht] at h2
    cases h2

theorem noOne_init {ts : List Task} (h0 : ∀ t ∈ ts, t.visited = 0) :
    NoOne ts := by
  intro t ht
  rw [h0 t ht]
  omega

theorem pass1_post {ts : List Task} {st' : Agenda} (hWF : WF ts)
    (h : pass1 { tasks := ts, sorted := [] } (ts.map (fun t => t.name)) = .ok st') :
    List.Forall₂ coreEq ts st'.tasks ∧
    NamesNodup st'.tasks ∧
    st'.sorted.Nodup ∧
    (∀ m, m ∈ st'.sorted ↔ m ∈ st'.tasks.map (fun t => t.name)) ∧
    (∀ t ∈ st'.tasks, t.visited = 2 ∧ t.init = true ∧ t.nice = DEFNICE) ∧
    (∀ t ∈ st'.tasks, ∀ d ∈ t.deps, SplitBefore st'.sorted d t.name) ∧
    DepsReg st'.tasks := by
  obtain ⟨hnd, hdrw, h0, hn3⟩ := hWF
  obtain ⟨hgood, hfr, hmarks, hnoone, hns⟩ :=
    pass1_good (ts.map (fun t => t.name)) { tasks := ts, sorted := [] } st' h
      hnd (depsReg_of_WF ⟨hnd, hdrw, h0, hn3⟩) (good_init h0) (noOne_init h0)
  obtain ⟨g1, g2, g3, g4⟩ := hgood
  have hnd' : NamesNodup st'.tasks := namesNodup_of_frame hfr hnd
  have hall : ∀ t ∈ st'.tasks, t.visited = 2 ∧ t.init = true ∧ t.nice = DEFNICE := by
    intro t' ht'
    obtain ⟨t, ht, hc⟩ := forall2_mem_right hfr ht'
    have hmem : t.name ∈ ts.map (fun t => t.name) := List.mem_map.2 ⟨t, ht, rfl⟩
    have hfind : findTask ts t.name = some t := nodup_findTask hnd ht
    obtain ⟨hinit, u, hu, hu2⟩ := hns t.name hmem t hfind
    have : t' = u := by
      refine mem_unique_of_namesNodup hnd' ht' (findTask_mem hu) ?_
      rw [coreEq_name hc, findTask_name hu]
    subst this
    refine ⟨hu2, ?_, ?_⟩
    · rw [coreEq_init hc]
      exact hinit
    · rw [coreEq_nice hc]
      exact hn3 t ht
  refine ⟨hfr, hnd', g1, ?_, hall, ?_, ?_⟩
  · intro m
    rw [g3 m]
    constructor
    · rintro ⟨u, hu, -⟩
      exact (findTask_isSome_iff st'.tasks m).1 ⟨u, hu⟩
    · intro hm
      obtain ⟨u, hu⟩ := (findTask_isSome_iff st'.tasks m).2 hm
      exact ⟨u, hu, (hall u (findTask_mem hu)).1⟩
  · intro t ht d hd
    exact g4 t ht (hall t ht).1 d hd
  · exact depsReg_of_frame hfr (depsReg_of_WF ⟨hnd, hdrw, h0, hn3⟩)

/-! ## Frame lemmas for the niceness pass -/

theorem findTask_rel {R : Task → Task → Prop}
    (hname : ∀ t u, R t u → u.name = t.name) {ts ts' : List Task}
    (h : List.Forall₂ R ts ts') (m : String) :
    (findTask ts m = none → findTask ts' m = none) ∧
    (∀ t, findTask ts m = some t →
      ∃ u, findTask ts' m = some u ∧ R t u) := by
  induction h with
  | nil => exact ⟨fun _ => rfl, fun t ht => by cases ht⟩
  | @cons a b l1 l2 hr hrs ih =>
    by_cases hm : a.name = m
    · constructor
      · intro hn
        unfold findTask at hn
        rw [List.find?_cons_of_pos _ (by simp [hm])] at hn
        cases hn
      · intro t ht
        unfold findTask at ht ⊢
        rw [List.find?_cons_of_pos _ (by simp [hm])] at ht
        rw [List.find?_cons_of_pos _ (by simp [hname a b hr, hm])]
        cases ht
        exact ⟨b, rfl, hr⟩
    · constructor
      · intro hn
        unfold findTask at hn ⊢
        rw [List.find?_cons_of_neg _ (by simp [hm])] at hn
        rw [List.find?_cons_of_neg _ (by simp [hname a b hr, hm])]
        exact ih.1 hn
      · intro t ht
        unfold findTask at ht ⊢
        rw [List.find?_cons_of_neg _ (by simp [hm])] at ht
        rw [List.find?_cons_of_neg _ (by simp [hname a b hr, hm])]
        exact ih.2 t ht

theorem coreN_refl (t : Task) : coreN t t := rfl

theorem coreN_trans {a b c : Task} (h1 : coreN a b) (h2 : coreN b c) :
    coreN a c := by
  unfold coreN at *
  rw [h1] at h2
  exact h2

theorem coreN_name {t u : Task} (h : coreN t u) : u.name = t.name := by rw [h]

theorem coreN_deps {t u : Task} (h : coreN t u) : u.deps = t.deps := by rw [h]

theorem coreN_due {t u : Task} (h : coreN t u) : u.due = t.due := by rw [h]

theorem coreN_pri {t u : Task} (h : coreN t u) : u.pri = t.pri := by rw [h]

theorem coreN_done {t u : Task} (h : coreN t u) : u.done = t.done := by rw [h]

theorem coreN_init {t u : Task} (h : coreN t u) : u.init = t.init := by rw [h]

theorem coreN_visited {t u : Task} (h : coreN t u) : u.visited = t.visited := by
  rw [h]

theorem coreN_ownNice (today : Int) {t u : Task} (h : coreN t u) :
    ownNice today u = ownNice today t := by
  unfold ownNice
  rw [coreN_due h, coreN_pri h]

theorem decN_refl (t : Task) : decN t t := ⟨coreN_refl t, le_refl _⟩

theorem decN_trans {a b c : Task} (h1 : decN a b) (h2 : decN b c) :
    decN a c :=
  ⟨coreN_trans h1.1 h2.1, le_trans h2.2 h1.2⟩

theorem decN_name {t u : Task} (h : decN t u) : u.name = t.name :=
  coreN_name h.1

theorem forall2_decN_refl (ts : List Task) : List.Forall₂ decN ts ts := by
  induction ts with
  | nil => exact .nil
  | cons t ts ih => exact .cons (decN_refl t) ih

theorem forall2_decN_trans {l1 l2 l3 : List Task}
    (h12 : List.Forall₂ decN l1 l2) (h23 : List.Forall₂ decN l2 l3) :
    List.Forall₂ decN l1 l3 :=
  @forall2_compose Task Task Task decN decN decN
    (fun _ _ _ h1 h2 => decN_trans h1 h2) l1 l2 l3 h12 h23

theorem decN_map_name {ts ts' : List Task}
    (h : List.Forall₂ decN ts ts') :
    ts'.map (fun t => t.name) = ts.map (fun t => t.name) := by
  induction h with
  | nil => rfl
  | cons hr _ ih => simp [decN_name hr, ih]

theorem namesNodup_of_decN {ts ts' : List Task}
    (h : List.Forall₂ decN ts ts') (hnd : NamesNodup ts) :
    NamesNodup ts' := by
  unfold NamesNodup at *
  rw [decN_map_name h]
  exact hnd

/-! ## Characterization of one `calcnice` call -/

theorem calcniceStep_none {today : Int} {st : Agenda} {n : String}
    (hf : findTask st.tasks n = none) : calcniceStep today st n = st := by
  unfold calcniceStep
  rw [hf]

theorem calcniceStep_some {today : Int} {st : Agenda} {n : String} {t : Task}
    (hf : findTask st.tasks n = some t) :
    calcniceStep today st n =
      t.deps.foldl (nstep today n)
        (if ownNice today t < t.nice then
          { st with tasks :=
              updTask st.tasks n (fun u => { u with nice := ownNice today t }) }
        else st) := by
  unfold calcniceStep
  simp only [hf]
  rfl

theorem nstep_none_n {today : Int} {s : Agenda} {n d : String}
    (hn : findTask s.tasks n = none) : nstep today n s d = s := by
  unfold nstep
  rw [hn]

theorem nstep_none_d {today : Int} {s : Agenda} {n d : String} {tn : Task}
    (hn : findTask s.tasks n = some tn) (hd : findTask s.tasks d = none) :
    nstep today n s d = s := by
  unfold nstep
  simp only [hn, hd]

theorem nstep_some {today : Int} {s : Agenda} {n d : String} {tn td : Task}
    (hn : findTask s.tasks n = some tn) (hd : findTask s.tasks d = some td) :
    nstep today n s d =
      if tn.nice < td.nice then
        { s with tasks := updTask s.tasks d (fun u => { u with nice := tn.nice }) }
      else s := by
  unfold nstep
  simp only [hn, hd]

theorem nstep_dec {today : Int} {s : Agenda} {n d : String}
    (hnd : NamesNodup s.tasks) :
    List.Forall₂ decN s.tasks (nstep today n s d).tasks := by
  cases hn : findTask s.tasks n with
  | none =>
    rw [nstep_none_n hn]
    exact forall2_decN_refl _
  | some tn =>
    cases hd : findTask s.tasks d with
    | none =>
      rw [nstep_none_d hn hd]
      exact forall2_decN_refl _
    | some td =>
      rw [nstep_some hn hd]
      by_cases hlt : tn.nice < td.nice
      · rw [if_pos hlt]
        apply updTask_forall2_mem
        · exact fun t _ => decN_refl t
        · intro u hu he
          refine ⟨rfl, ?_⟩
          show tn.nice ≤ u.nice
          have : u = td := by
            refine mem_unique_of_namesNodup hnd hu (findTask_mem hd) ?_
            rw [he, findTask_name hd]
          rw [this]
          exact le_of_lt hlt
      · rw [if_neg hlt]
        exact forall2_decN_refl _
theorem foldl_nstep_dec {today : Int} {n : String} :
    ∀ (ds : List String) (s : Agenda), NamesNodup s.tasks →
      List.Forall₂ decN s.tasks ((ds.foldl (nstep today n) s)).tasks := by
  intro ds
  induction ds with
  | nil => intro s _; exact forall2_decN_refl _
  | cons d ds ih =>
    intro s hnd
    rw [List.foldl_cons]
    have h1 : List.Forall₂ decN s.tasks (nstep today n s d).tasks :=
      nstep_dec hnd
    exact forall2_decN_trans h1 (ih _ (namesNodup_of_decN h1 hnd))

theorem calcniceStep_dec {today : Int} {st : Agenda} {n : String}
    (hnd : NamesNodup st.tasks) :
    List.Forall₂ decN st.tasks (calcniceStep today st n).tasks := by
  cases hf : findTask st.tasks n with
  | none =>
    rw [calcniceStep_none hf]
    exact forall2_decN_refl _
  | some t =>
    rw [calcniceStep_some hf]
    have h1 : List.Forall₂ decN st.tasks
        (if ownNice today t < t.nice then
          ({ st with tasks :=
              updTask st.tasks n (fun u => { u with nice := ownNice today t }) } : Agenda)
        else st).tasks := by
      by_cases hlt : ownNice today t < t.nice
      · rw [if_pos hlt]
        apply updTask_forall2_mem
        · exact fun t _ => decN_refl t
        · intro u hu he
          refine ⟨rfl, ?_⟩
          show ownNice today t ≤ u.nice
          have : u = t := by
            refine mem_unique_of_namesNodup hnd hu (findTask_mem hf) ?_
            rw [he, findTask_name hf]
          rw [this]
          exact le_of_lt hlt
      · rw [if_neg hlt]
        exact forall2_decN_refl _
    exact forall2_decN_trans h1
      (foldl_nstep_dec t.deps _ (namesNodup_of_decN h1 hnd))

theorem foldl_calcniceStep_dec {today : Int} :
    ∀ (l : List String) (s : Agenda), NamesNodup s.tasks →
      List.Forall₂ decN s.tasks ((l.foldl (calcniceStep today) s)).tasks := by
  intro l
  induction l with
  | nil => intro s _; exact forall2_decN_refl _
  | cons y l ih =>
    intro s hnd
    rw [List.foldl_cons]
    have h1 : List.Forall₂ decN s.tasks (calcniceStep today s y).tasks :=
      calcniceStep_dec hnd
    exact forall2_decN_trans h1 (ih _ (namesNodup_of_decN h1 hnd))

theorem foldl_nstep_char {today : Int} {n : String} {v : Int} :
    ∀ (ds : List String) (s : Agenda),
      NamesNodup s.tasks →
      (∃ tn, findTask s.tasks n = some tn ∧ tn.nice = v) →
      n ∉ ds →
      (∀ m, m ∉ ds →
        findTask ((ds.foldl (nstep today n) s)).tasks m = findTask s.tasks m) ∧
      (∀ m ∈ ds, ∀ u, findTask s.tasks m = some u →
        ∃ u', findTask ((ds.foldl (nstep today n) s)).tasks m = some u' ∧
          u'.nice = min u.nice v ∧ coreN u u') := by
  intro ds
  induction ds with
  | nil =>
    intro s _ _ _
    exact ⟨fun m _ => rfl, fun m hm => by cases hm⟩
  | cons d ds ih =>
    intro s hnd hn hnotin
    obtain ⟨tn, htn, htnv⟩ := hn
    have hdn : n ≠ d := fun h => hnotin (h ▸ List.mem_cons_self _ _)
    have hnds : n ∉ ds := fun h => hnotin (List.mem_cons_of_mem _ h)
    rw [List.foldl_cons]
    cases hd : findTask s.tasks d with
    | none =>
      rw [nstep_none_d htn hd]
      obtain ⟨ih1, ih2⟩ := ih s hnd ⟨tn, htn, htnv⟩ hnds
      constructor
      · intro m hm
        exact ih1 m (fun h => hm (List.mem_cons_of_mem _ h))
      · intro m hm u hu
        rcases List.mem_cons.1 hm with rfl | hm'
        · rw [hd] at hu
          cases hu
        · exact ih2 m hm' u hu
    | some td =>
      have hvle : ¬ tn.nice < td.nice → td.nice ≤ v := fun h => htnv ▸ le_of_not_lt h
      have hvlt : tn.nice < td.nice → v ≤ td.nice := fun h => htnv ▸ le_of_lt h
      by_cases hlt : tn.nice < td.nice
      · rw [nstep_some htn hd, if_pos hlt]
        set s1 : Agenda :=
          { s with tasks := updTask s.tasks d (fun u => { u with nice := tn.nice }) }
          with hs1
        have hfr1 : List.Forall₂ decN s.tasks s1.tasks := by
          apply updTask_forall2_mem
          · exact fun t _ => decN_refl t
          · intro u hu he
            refine ⟨rfl, ?_⟩
            show tn.nice ≤ u.nice
            have : u = td := by
              refine mem_unique_of_namesNodup hnd hu (findTask_mem hd) ?_
              rw [he, findTask_name hd]
            rw [this]
            exact le_of_lt hlt
        have hnd1 : NamesNodup s1.tasks := namesNodup_of_decN hfr1 hnd
        have hfn1 : findTask s1.tasks n = some tn := by
          show findTask
            (updTask s.tasks d (fun u => { u with nice := tn.nice })) n = some tn
          rw [findTask_updTask_ne (fun u => { u with nice := tn.nice })
            (fun _ => rfl) hdn]
          exact htn
        have hfd1 : findTask s1.tasks d = some { td with nice := tn.nice } := by
          show findTask
            (updTask s.tasks d (fun u => { u with nice := tn.nice })) d =
              some { td with nice := tn.nice }
          exact findTask_updTask_self
            (fun u => { u with nice := tn.nice }) (fun _ => rfl) hd
        have hfm1 : ∀ m, m ≠ d → findTask s1.tasks m = findTask s.tasks m := by
          intro m hm
          show findTask
            (updTask s.tasks d (fun u => { u with nice := tn.nice })) m =
              findTask s.tasks m
          exact findTask_updTask_ne (fun u => { u with nice := tn.nice })
            (fun _ => rfl) hm
        obtain ⟨ih1, ih2⟩ := ih s1 hnd1 ⟨tn, hfn1, htnv⟩ hnds
        constructor
        · intro m hm
          have hmd : m ≠ d := fun h => hm (h ▸ List.mem_cons_self _ _)
          have hmds : m ∉ ds := fun h => hm (List.mem_cons_of_mem _ h)
          rw [ih1 m hmds, hfm1 m hmd]
        · intro m hm u hu
          by_cases hmd : m = d
          · subst hmd
            rw [hd] at hu
            cases hu
            have hmin : min td.nice v = v := min_eq_right (hvlt hlt)
            by_cases hmds : m ∈ ds
            · obtain ⟨u', hu', hun, huc⟩ := ih2 m hmds _ hfd1
              refine ⟨u', hu', ?_,
                coreN_trans (show coreN td { td with nice := tn.nice } from rfl) huc⟩
              rw [hun, hmin]
              show min ({ td with nice := tn.nice } : Task).nice v = v
              show min tn.nice v = v
              rw [htnv, min_self]
            · refine ⟨{ td with nice := tn.nice }, ?_, ?_, rfl⟩
              · rw [ih1 m hmds]
                exact hfd1
              · show tn.nice = min td.nice v
                rw [htnv, hmin]
          · have hm' : m ∈ ds := by
              rcases List.mem_cons.1 hm with h | h
              · exact absurd h hmd
              · exact h
            refine ih2 m hm' u ?_
            rw [hfm1 m hmd]
            exact hu
      · rw [nstep_some htn hd, if_neg hlt]
        obtain ⟨ih1, ih2⟩ := ih s hnd ⟨tn, htn, htnv⟩ hnds
        constructor
        · intro m hm
          exact ih1 m (fun h => hm (List.mem_cons_of_mem _ h))
        · intro m hm u hu
          by_cases hmd : m = d
          · subst hmd
            rw [hd] at hu
            cases hu
            have hmin : min td.nice v = td.nice := min_eq_left (hvle hlt)
            by_cases hmds : m ∈ ds
            · exact ih2 m hmds td hd
            · refine ⟨td, ?_, ?_, coreN_refl td⟩
              · rw [ih1 m hmds]
                exact hd
              · rw [hmin]
          · have hm' : m ∈ ds := by
              rcases List.mem_cons.1 hm with h | h
              · exact absurd h hmd
              · exact h
            exact ih2 m hm' u hu


theorem calcniceStep_char {today : Int} {st : Agenda} {n : String} {t : Task}
    (hnd : NamesNodup st.tasks) (hf : findTask st.tasks n = some t)
    (hself : n ∉ t.deps) :
    (∃ u, findTask (calcniceStep today st n).tasks n = some u ∧
       u.nice = min (ownNice today t) t.nice ∧ coreN t u) ∧
    (∀ m ∈ t.deps, ∀ u, findTask st.tasks m = some u →
       ∃ u', findTask (calcniceStep today st n).tasks m = some u' ∧
         u'.nice = min u.nice (min (ownNice today t) t.nice) ∧ coreN u u') ∧
    (∀ m, m ≠ n → m ∉ t.deps →
       findTask (calcniceStep today st n).tasks m = findTask st.tasks m) := by
  rw [calcniceStep_some hf]
  set v : Int := min (ownNice today t) t.nice with hv
  set t1 : Task := if ownNice today t < t.nice then
      { t with nice := ownNice today t } else t with ht1
  set s1 : Agenda :=
    if ownNice today t < t.nice then
      ({ st with tasks :=
          updTask st.tasks n (fun u => { u with nice := ownNice today t }) } :
        Agenda)
    else st
    with hs1
  have hfr1 : List.Forall₂ decN st.tasks s1.tasks := by
    rw [hs1]
    by_cases hlt : ownNice today t < t.nice
    · rw [if_pos hlt]
      apply updTask_forall2_mem
      · exact fun t _ => decN_refl t
      · intro u hu he
        refine ⟨rfl, ?_⟩
        show ownNice today t ≤ u.nice
        have : u = t := by
          refine mem_unique_of_namesNodup hnd hu (findTask_mem hf) ?_
          rw [he, findTask_name hf]
        rw [this]
        exact le_of_lt hlt
    · rw [if_neg hlt]
      exact forall2_decN_refl _
  have hnd1 : NamesNodup s1.tasks := namesNodup_of_decN hfr1 hnd
  have hfn1 : findTask s1.tasks n = some t1 := by
    rw [hs1, ht1]
    by_cases hlt : ownNice today t < t.nice
    · rw [if_pos hlt, if_pos hlt]
      exact findTask_updTask_self
        (fun u => { u with nice := ownNice today t }) (fun _ => rfl) hf
    · rw [if_neg hlt, if_neg hlt]
      exact hf
  have ht1v : t1.nice = v := by
    rw [ht1, hv]
    by_cases hlt : ownNice today t < t.nice
    · rw [if_pos hlt]
      show ownNice today t = min (ownNice today t) t.nice
      rw [min_eq_left (le_of_lt hlt)]
    · rw [if_neg hlt]
      show t.nice = min (ownNice today t) t.nice
      rw [min_eq_right (le_of_not_lt hlt)]
  have ht1c : coreN t t1 := by
    rw [ht1]
    by_cases hlt : ownNice today t < t.nice
    · rw [if_pos hlt]
      rfl
    · rw [if_neg hlt]
      exact coreN_refl t
  have hfm1 : ∀ m, m ≠ n → findTask s1.tasks m = findTask st.tasks m := by
    intro m hm
    rw [hs1]
    by_cases hlt : ownNice today t < t.nice
    · rw [if_pos hlt]
      exact findTask_updTask_ne
        (fun u => { u with nice := ownNice today t }) (fun _ => rfl) hm
    · rw [if_neg hlt]
  obtain ⟨c1, c2⟩ := foldl_nstep_char t.deps s1 hnd1 ⟨t1, hfn1, ht1v⟩ hself
  refine ⟨?_, ?_, ?_⟩
  · refine ⟨t1, ?_, ht1v, ht1c⟩
    rw [c1 n hself]
    exact hfn1
  · intro m hm u hu
    have hmn : m ≠ n := fun h => hself (h ▸ hm)
    have hu1 : findTask s1.tasks m = some u := by
      rw [hfm1 m hmn]
      exact hu
    exact c2 m hm u hu1
  · intro m hmn hmd
    rw [c1 m hmd, hfm1 m hmn]

/-! ## The second pass over the reversed topological order -/

theorem foldl_concat_step (today : Int) (b : Agenda) (l : List String)
    (y : String) :
    (l ++ [y]).foldl (calcniceStep today) b =
      calcniceStep today (l.foldl (calcniceStep today) b) y := by
  rw [List.foldl_append]
  rfl

theorem staged_R_nodup {S : Agenda} (hst : Staged S) :
    S.sorted.reverse.Nodup := by
  rw [List.nodup_reverse]
  exact hst.2.2.1

theorem staged_R_mem {S : Agenda} (hst : Staged S) (m : String) :
    m ∈ S.sorted.reverse ↔ m ∈ S.tasks.map (fun t => t.name) := by
  rw [List.mem_reverse]
  exact hst.2.2.2.1 m

theorem staged_topoR {S : Agenda} (hst : Staged S) :
    ∀ t ∈ S.tasks, ∀ d ∈ t.deps, SplitBefore S.sorted.reverse t.name d := by
  intro t ht d hd
  exact (hst.2.2.2.2.2 t ht d hd).reverse

theorem staged_no_self {S : Agenda} (hst : Staged S) :
    ∀ t ∈ S.tasks, t.name ∉ t.deps := by
  intro t ht hmem
  exact splitBefore_irrefl (staged_R_nodup hst) (staged_topoR hst t ht _ hmem)

theorem decN_back {S : Agenda} {s : Agenda}
    (hfr : List.Forall₂ decN S.tasks s.tasks) {m : String} {u : Task}
    (hu : findTask s.tasks m = some u) :
    ∃ t0, findTask S.tasks m = some t0 ∧ decN t0 u := by
  have hreg : m ∈ S.tasks.map (fun t => t.name) := by
    rw [← decN_map_name hfr]
    exact (findTask_isSome_iff s.tasks m).1 ⟨u, hu⟩
  obtain ⟨t0, hft0⟩ := (findTask_isSome_iff S.tasks m).2 hreg
  obtain ⟨u', hu', hdec⟩ := (findTask_rel (fun _ _ h => decN_name h) hfr m).2 t0 hft0
  rw [hu] at hu'
  cases hu'
  exact ⟨t0, hft0, hdec⟩

theorem go_untouched {today : Int} {S : Agenda} (hst : Staged S) :
    ∀ (Y : List String) (s : Agenda) (m : String),
      List.Forall₂ decN S.tasks s.tasks →
      (∀ y ∈ Y, m ≠ y) →
      (∀ y ∈ Y, ∀ t0 ∈ S.tasks, t0.name = y → m ∉ t0.deps) →
      findTask ((Y.foldl (calcniceStep today) s)).tasks m = findTask s.tasks m := by
  intro Y
  induction Y with
  | nil => intro s m _ _ _; rfl
  | cons y Y ih =>
    intro s m hfr hne hdeps
    rw [List.foldl_cons]
    have hnds : NamesNodup s.tasks := namesNodup_of_decN hfr hst.1
    have step1 : findTask (calcniceStep today s y).tasks m = findTask s.tasks m := by
      cases hfy : findTask s.tasks y with
      | none => rw [calcniceStep_none hfy]
      | some ty =>
        obtain ⟨t0, hft0, hdec⟩ := decN_back hfr hfy
        have hname : t0.name = y := findTask_name hft0
        have hdeps_eq : ty.deps = t0.deps := coreN_deps hdec.1
        have hself : y ∉ ty.deps := by
          rw [hdeps_eq, ← hname]
          exact staged_no_self hst t0 (findTask_mem hft0)
        have hmne : m ≠ y := hne y (List.mem_cons_self _ _)
        have hmnd : m ∉ ty.deps := by
          rw [hdeps_eq]
          exact hdeps y (List.mem_cons_self _ _) t0 (findTask_mem hft0) hname
        exact (calcniceStep_char hnds hfy hself).2.2 m hmne hmnd
    have hfr1 : List.Forall₂ decN S.tasks (calcniceStep today s y).tasks :=
      forall2_decN_trans hfr (calcniceStep_dec hnds)
    rw [ih (calcniceStep today s y) m hfr1
      (fun z hz => hne z (List.mem_cons_of_mem _ hz))
      (fun z hz => hdeps z (List.mem_cons_of_mem _ hz))]
    exact step1

theorem pass2_eq_foldl_mid {today : Int} {S : Agenda} {X Y : List String}
    {m : String} (hXY : S.sorted.reverse = X ++ m :: Y) :
    pass2 today S =
      Y.foldl (calcniceStep today)
        (calcniceStep today (X.foldl (calcniceStep today) S) m) := by
  unfold pass2
  rw [hXY, List.foldl_append, List.foldl_cons]

theorem pass2_at {today : Int} {S : Agenda} (hst : Staged S) {m : String}
    {t0 : Task} (hft0 : findTask S.tasks m = some t0) :
    ∃ u, findTask (pass2 today S).tasks m = some u ∧
      u.nice ≤ ownNice today t0 ∧ u.nice ≤ DEFNICE ∧
      (∀ d ∈ t0.deps, ∀ w, findTask (pass2 today S).tasks d = some w →
        w.nice ≤ u.nice) := by
  have hmR : m ∈ S.sorted.reverse := by
    rw [staged_R_mem hst m]
    exact List.mem_map.2 ⟨t0, findTask_mem hft0, findTask_name hft0⟩
  obtain ⟨X, Y, hXY⟩ := List.append_of_mem hmR
  have hndR : (X ++ m :: Y).Nodup := by
    rw [← hXY]
    exact staged_R_nodup hst
  have hmY : m ∉ Y := by
    rw [List.nodup_append] at hndR
    have := hndR.2.1
    rw [List.nodup_cons] at this
    exact this.1
  have hbefore : ∀ y ∈ Y, SplitBefore S.sorted.reverse m y := by
    intro y hy
    obtain ⟨Y1, Y2, hY⟩ := List.append_of_mem hy
    exact ⟨X, Y1, Y2, by rw [hXY, hY]⟩
  have hfr1 : List.Forall₂ decN S.tasks
      ((X.foldl (calcniceStep today) S)).tasks :=
    foldl_calcniceStep_dec X S hst.1
  have hnd1 : NamesNodup ((X.foldl (calcniceStep today) S)).tasks :=
    namesNodup_of_decN hfr1 hst.1
  obtain ⟨t1, hft1, hdec1⟩ := (findTask_rel (fun _ _ h => decN_name h) hfr1 m).2 t0 hft0
  have hdeps1 : t1.deps = t0.deps := coreN_deps hdec1.1
  have hown1 : ownNice today t1 = ownNice today t0 := coreN_ownNice today hdec1.1
  have hnice1 : t1.nice ≤ DEFNICE := by
    have := hst.2.2.2.2.1 t0 (findTask_mem hft0)
    rw [← this]
    exact hdec1.2
  have hself1 : m ∉ t1.deps := by
    rw [hdeps1, ← findTask_name hft0]
    exact staged_no_self hst t0 (findTask_mem hft0)
  have hchar := @calcniceStep_char today (X.foldl (calcniceStep today) S) m t1 hnd1 hft1 hself1
  obtain ⟨u1, hu1, hu1n, hu1c⟩ := hchar.1
  have hfrMid : List.Forall₂ decN S.tasks
      (calcniceStep today (X.foldl (calcniceStep today) S) m).tasks :=
    forall2_decN_trans hfr1 (calcniceStep_dec hnd1)
  have huntouched : findTask (pass2 today S).tasks m =
      findTask (calcniceStep today (X.foldl (calcniceStep today) S) m).tasks m := by
    rw [pass2_eq_foldl_mid hXY]
    refine go_untouched hst Y _ m hfrMid ?_ ?_
    · intro y hy heq
      exact hmY (heq ▸ hy)
    · intro y hy t0' ht0' hname hmdep
      refine splitBefore_asymm (staged_R_nodup hst) ?_ (hbefore y hy)
      have := staged_topoR hst t0' ht0' m hmdep
      rwa [hname] at this
  refine ⟨u1, by rw [huntouched]; exact hu1, ?_, ?_, ?_⟩
  · rw [hu1n, ← hown1]
    exact min_le_left _ _
  · rw [hu1n]
    exact le_trans (min_le_right _ _) hnice1
  · intro d hd w hw
    obtain ⟨w0, hfw0⟩ := hst.2.1 t0 (findTask_mem hft0) d hd
    obtain ⟨w1, hfw1, -⟩ := (findTask_rel (fun _ _ h => decN_name h) hfr1 d).2 w0 hfw0
    have hd1 : d ∈ t1.deps := by rw [hdeps1]; exact hd
    obtain ⟨w2, hfw2, hw2n, -⟩ := hchar.2.1 d hd1 w1 hfw1
    have hndMid : NamesNodup
        (calcniceStep today (X.foldl (calcniceStep today) S) m).tasks :=
      namesNodup_of_decN hfrMid hst.1
    have hfrRest : List.Forall₂ decN
        (calcniceStep today (X.foldl (calcniceStep today) S) m).tasks
        (pass2 today S).tasks := by
      rw [pass2_eq_foldl_mid hXY]
      exact foldl_calcniceStep_dec Y _ hndMid
    obtain ⟨w3, hfw3, hdec3⟩ :=
      (findTask_rel (fun _ _ h => decN_name h) hfrRest d).2 w2 hfw2
    rw [hw] at hfw3
    cases hfw3
    calc w.nice ≤ w2.nice := hdec3.2
      _ = min w1.nice (min (ownNice today t1) t1.nice) := hw2n
      _ ≤ min (ownNice today t1) t1.nice := min_le_right _ _
      _ = u1.nice := hu1n.symm

theorem contains_of_mem {l : List String} {a : String} (h : a ∈ l) :
    l.contains a = true := by
  simpa [List.elem_iff] using h

theorem mem_of_contains {l : List String} {a : String}
    (h : l.contains a = true) : a ∈ l := by
  simpa [List.elem_iff] using h

theorem pass2_lower {today : Int} {S : Agenda} (hst : Staged S) :
    ∀ (P Y : List String), S.sorted.reverse = P ++ Y →
      ∀ m t0 u, findTask S.tasks m = some t0 →
        findTask ((P.foldl (calcniceStep today) S)).tasks m = some u →
        (((pass2 today S).tasks.filter (fun x => x.deps.contains m)).map
            (fun x => x.nice)).foldr min
          (min (ownNice today t0) DEFNICE) ≤ u.nice := by
  intro P
  induction P using List.reverseRecOn with
  | nil =>
    intro Y hR m t0 u hft0 hfu
    rw [List.foldl_nil] at hfu
    rw [hft0] at hfu
    cases hfu
    have hn3 : t0.nice = DEFNICE := hst.2.2.2.2.1 t0 (findTask_mem hft0)
    rw [hn3]
    exact le_trans (foldr_min_le_base _ _) (min_le_right _ _)
  | append_singleton P y ih =>
    intro Y hR m t0 u hft0 hfu
    have hR' : S.sorted.reverse = P ++ (y :: Y) := by
      rw [hR, List.append_assoc]
      rfl
    rw [foldl_concat_step] at hfu
    have hfr1 : List.Forall₂ decN S.tasks
        ((P.foldl (calcniceStep today) S)).tasks :=
      foldl_calcniceStep_dec P S hst.1
    have hnd1 : NamesNodup ((P.foldl (calcniceStep today) S)).tasks :=
      namesNodup_of_decN hfr1 hst.1
    cases hfy : findTask ((P.foldl (calcniceStep today) S)).tasks y with
    | none =>
      rw [calcniceStep_none hfy] at hfu
      exact ih (y :: Y) hR' m t0 u hft0 hfu
    | some ty =>
      obtain ⟨t0y, hft0y, hdecy⟩ := decN_back hfr1 hfy
      have hnamey : t0y.name = y := findTask_name hft0y
      have hdepsy : ty.deps = t0y.deps := coreN_deps hdecy.1
      have hselfy : y ∉ ty.deps := by
        rw [hdepsy, ← hnamey]
        exact staged_no_self hst t0y (findTask_mem hft0y)
      have hchar := @calcniceStep_char today
        (P.foldl (calcniceStep today) S) y ty hnd1 hfy hselfy
      -- the final niceness of `y` is below the value the step writes
      obtain ⟨uy, hfuy, huyn, huyc⟩ := hchar.1
      have hfrRest : List.Forall₂ decN
          (calcniceStep today (P.foldl (calcniceStep today) S) y).tasks
          (pass2 today S).tasks := by
        rw [pass2_eq_foldl_mid hR']
        exact foldl_calcniceStep_dec Y _
          (namesNodup_of_decN
            (forall2_decN_trans hfr1 (calcniceStep_dec hnd1)) hst.1)
      obtain ⟨uyA, hfuyA, hdecyA⟩ :=
        (findTask_rel (fun _ _ h => decN_name h) hfrRest y).2 uy hfuy
      have huyA : uyA.nice ≤ min (ownNice today ty) ty.nice := by
        rw [← huyn]
        exact hdecyA.2
      by_cases hmy : m = y
      · subst hmy
        rw [hft0y] at hft0
        cases hft0
        obtain ⟨u', hfu', hu'n, -⟩ := hchar.1
        rw [hfu'] at hfu
        cases hfu
        rw [hu'n]
        refine le_min ?_ ?_
        · have h1 : ownNice today ty = ownNice today t0 :=
            coreN_ownNice today hdecy.1
          rw [h1]
          exact le_trans (foldr_min_le_base _ _) (min_le_left _ _)
        · exact ih (m :: Y) hR' m t0 ty hft0y hfy
      · by_cases hmd : m ∈ ty.deps
        · have hreg : ∃ w0, findTask S.tasks m = some w0 :=
            hst.2.1 t0y (findTask_mem hft0y) m (hdepsy ▸ hmd)
          obtain ⟨w, hfw, -⟩ :=
            (findTask_rel (fun _ _ h => decN_name h) hfr1 m).2 t0 hft0
          obtain ⟨w', hfw', hw'n, -⟩ := hchar.2.1 m hmd w hfw
          rw [hfw'] at hfu
          cases hfu
          rw [hw'n]
          refine le_min ?_ ?_
          · exact ih (y :: Y) hR' m t0 w hft0 hfw
          · -- the dependent `y` appears among the final dependents of `m`
            have hmemA : uyA ∈ (pass2 today S).tasks := findTask_mem hfuyA
            have hdepsA : uyA.deps = ty.deps := by
              rw [coreN_deps hdecyA.1, coreN_deps huyc]
            have hcont : uyA.deps.contains m = true := by
              rw [hdepsA]
              exact contains_of_mem hmd
            have hmemf : uyA.nice ∈
                (((pass2 today S).tasks.filter
                  (fun x => x.deps.contains m)).map (fun x => x.nice)) :=
              List.mem_map.2 ⟨uyA, List.mem_filter.2 ⟨hmemA, hcont⟩, rfl⟩
            exact le_trans (foldr_min_le_mem _ hmemf) huyA
        · rw [hchar.2.2 m hmy hmd] at hfu
          exact ih (y :: Y) hR' m t0 u hft0 hfu

theorem pass2_equation {today : Int} {S : Agenda} (hst : Staged S)
    {m : String} {t0 : Task} (hft0 : findTask S.tasks m = some t0) :
    ∃ u, findTask (pass2 today S).tasks m = some u ∧
      u.nice = (((pass2 today S).tasks.filter
          (fun x => x.deps.contains m)).map (fun x => x.nice)).foldr min
        (min (ownNice today t0) DEFNICE) := by
  obtain ⟨u, hfu, h1, h2, h3⟩ := pass2_at hst hft0
  have hfrA : List.Forall₂ decN S.tasks (pass2 today S).tasks := by
    rw [pass2]
    exact foldl_calcniceStep_dec _ S hst.1
  have hndA : NamesNodup (pass2 today S).tasks :=
    namesNodup_of_decN hfrA hst.1
  refine ⟨u, hfu, le_antisymm ?_ ?_⟩
  · refine le_foldr_min (le_min h1 h2) ?_
    intro a ha
    obtain ⟨x, hxf, rfl⟩ := List.mem_map.1 ha
    obtain ⟨hxA, hxc⟩ := List.mem_filter.1 hxf
    have hfx : findTask (pass2 today S).tasks x.name = some x :=
      nodup_findTask hndA hxA
    obtain ⟨x0, hfx0, hxdec⟩ := decN_back hfrA hfx
    have hm0 : m ∈ x0.deps := by
      have := coreN_deps hxdec.1
      rw [← this]
      exact mem_of_contains hxc
    obtain ⟨ux, hfux, -, -, hux3⟩ := pass2_at hst hfx0
    rw [hfx] at hfux
    cases hfux
    exact hux3 m hm0 u hfu
  · have hP : S.sorted.reverse = S.sorted.reverse ++ ([] : List String) := by
      rw [List.append_nil]
    have hfu' : findTask ((S.sorted.reverse.foldl (calcniceStep today) S)).tasks
        m = some u := by
      rw [← pass2]
      exact hfu
    exact @pass2_lower today S hst S.sorted.reverse [] hP m t0 u hft0 hfu'

/-! ## The shift loop and the base-2 logarithm -/

theorem shiftsAux_congr :
    ∀ f g n, n ≤ f → n ≤ g → shiftsAux f n = shiftsAux g n := by
  intro f
  induction f with
  | zero =>
    intro g n hf hg
    have : n = 0 := by omega
    subst this
    cases g with
    | zero => rfl
    | succ g' => simp [shiftsAux]
  | succ f ih =>
    intro g n hf hg
    cases g with
    | zero =>
      have : n = 0 := by omega
      subst this
      simp [shiftsAux]
    | succ g' =>
      by_cases h1 : n ≤ 1
      · simp [shiftsAux, h1]
      · have hrec : shiftsAux f (n / 2) = shiftsAux g' (n / 2) :=
          ih g' (n / 2) (by omega) (by omega)
        simp [shiftsAux, h1, hrec]

theorem shifts_eq (n : Nat) :
    shifts n = if n ≤ 1 then 0 else shifts (n / 2) + 1 := by
  cases n with
  | zero => simp [shifts, shiftsAux]
  | succ m =>
    by_cases h1 : m + 1 ≤ 1
    · simp [shifts, shiftsAux, h1]
    · have : shiftsAux m ((m + 1) / 2) = shiftsAux ((m + 1) / 2) ((m + 1) / 2) :=
        shiftsAux_congr m ((m + 1) / 2) ((m + 1) / 2) (by omega) (by omega)
      simp [shifts, shiftsAux, h1, this]

theorem shifts_eq_log : ∀ n, shifts n = Nat.log 2 n := by
  intro n
  induction n using Nat.strong_induction_on with
  | _ n ih =>
    by_cases h1 : n ≤ 1
    · rw [shifts_eq, if_pos h1]
      interval_cases n
      · rw [Nat.log_zero_right]
      · rw [Nat.log_one_right]
    · rw [shifts_eq, if_neg h1, ih (n / 2) (by omega)]
      conv_rhs => rw [Nat.log]
      rw [dif_pos ⟨by omega, by omega⟩]

/-! ## The niceness pass leaves the sorted list unchanged -/

theorem nstep_sorted (today : Int) (n : String) (s : Agenda) (d : String) :
    (nstep today n s d).sorted = s.sorted := by
  cases hn : findTask s.tasks n with
  | none => rw [nstep_none_n hn]
  | some tn =>
    cases hd : findTask s.tasks d with
    | none => rw [nstep_none_d hn hd]
    | some td =>
      rw [nstep_some hn hd]
      by_cases hlt : tn.nice < td.nice
      · rw [if_pos hlt]
      · rw [if_neg hlt]

theorem foldl_nstep_sorted (today : Int) (n : String) :
    ∀ (ds : List String) (s : Agenda),
      ((ds.foldl (nstep today n) s)).sorted = s.sorted := by
  intro ds
  induction ds with
  | nil => intro s; rfl
  | cons d ds ih =>
    intro s
    rw [List.foldl_cons, ih, nstep_sorted]

theorem calcniceStep_sorted (today : Int) (st : Agenda) (n : String) :
    (calcniceStep today st n).sorted = st.sorted := by
  cases hf : findTask st.tasks n with
  | none => rw [calcniceStep_none hf]
  | some t =>
    rw [calcniceStep_some hf, foldl_nstep_sorted]
    by_cases hlt : ownNice today t < t.nice
    · rw [if_pos hlt]
    · rw [if_neg hlt]

theorem foldl_calcniceStep_sorted (today : Int) :
    ∀ (ns : List String) (st : Agenda),
      ((ns.foldl (calcniceStep today) st)).sorted = st.sorted := by
  intro ns
  induction ns with
  | nil => intro st; rfl
  | cons n ns ih =>
    intro st
    rw [List.foldl_cons, ih, calcniceStep_sorted]

theorem pass2_sorted (today : Int) (st : Agenda) :
    (pass2 today st).sorted = st.sorted := by
  rw [pass2, foldl_calcniceStep_sorted]

/-! ## The array passes: membership and uniqueness -/

theorem insertByNice_perm (t : Task) (l : List Task) :
    (insertByNice t l).Perm (t :: l) := by
  induction l with
  | nil => exact List.Perm.refl _
  | cons u us ih =>
    rw [insertByNice]
    by_cases h : niceLe t u
    · rw [if_pos h]
    · rw [if_neg h]
      exact (ih.cons u).trans (List.Perm.swap t u us)

theorem sortByNice_perm (l : List Task) : (sortByNice l).Perm l := by
  induction l with
  | nil => exact List.Perm.refl _
  | cons t ts ih =>
    show (insertByNice t (sortByNice ts)).Perm (t :: ts)
    exact (insertByNice_perm t (sortByNice ts)).trans (ih.cons t)

theorem sortByNice_mem {l : List Task} {t : Task} :
    t ∈ sortByNice l ↔ t ∈ l := (sortByNice_perm l).mem_iff

theorem unblocked_mem_tasks {st : Agenda} {t : Task} (h : t ∈ unblocked st) :
    t ∈ st.tasks := by
  unfold unblocked at h
  obtain ⟨hmem, -⟩ := List.mem_filter.1 h
  obtain ⟨n, hn, hf⟩ := List.mem_filterMap.1 hmem
  exact findTask_mem hf

theorem output_mem_unblocked {st : Agenda} {t : Task} :
    t ∈ output st ↔ t ∈ unblocked st := sortByNice_mem

theorem output_mem_tasks {st : Agenda} {t : Task} (h : t ∈ output st) :
    t ∈ st.tasks :=
  unblocked_mem_tasks (output_mem_unblocked.1 h)

theorem filterMap_findTask_names_nodup (ts : List Task) :
    ∀ {l : List String}, l.Nodup →
      ((l.filterMap (findTask ts)).map (fun t => t.name)).Nodup := by
  intro l
  induction l with
  | nil => intro; simp
  | cons n ns ih =>
    intro hnd
    rw [List.nodup_cons] at hnd
    rw [List.filterMap_cons]
    cases hf : findTask ts n with
    | none => exact ih hnd.2
    | some t =>
      rw [List.map_cons, List.nodup_cons]
      refine ⟨?_, ih hnd.2⟩
      intro hmem
      obtain ⟨u, hu, hun⟩ := List.mem_map.1 hmem
      obtain ⟨m, hm, hfm⟩ := List.mem_filterMap.1 hu
      refine hnd.1 ?_
      have h1 : u.name = m := findTask_name hfm
      have h2 : t.name = n := findTask_name hf
      rw [← h1, hun, h2] at hm
      exact hm

theorem unblocked_names_nodup {st : Agenda} (hnd : st.sorted.Nodup) :
    ((unblocked st).map (fun t => t.name)).Nodup := by
  have h1 := filterMap_findTask_names_nodup st.tasks hnd
  have hsub : List.Sublist
      ((unblocked st).map (fun t => t.name))
      ((st.sorted.filterMap (findTask st.tasks)).map (fun t => t.name)) :=
    List.Sublist.map _ (List.filter_sublist _)
  exact h1.sublist hsub

theorem output_names_nodup {st : Agenda} (hnd : st.sorted.Nodup) :
    ((output st).map (fun t => t.name)).Nodup := by
  have hp : ((output st).map (fun t => t.name)).Perm
      ((unblocked st).map (fun t => t.name)) :=
    (sortByNice_perm (unblocked st)).map _
  exact hp.nodup_iff.2 (unblocked_names_nodup hnd)

theorem unblocked_length_le_sorted (st : Agenda) :
    (unblocked st).length ≤ st.sorted.length :=
  le_trans (List.length_filter_le _ _) (List.length_filterMap_le _ _)

/-! ## Which errors the graph passes can raise -/

theorem foldl_vstep_err_inv {f : Nat} {e : CErr} :
    ∀ (ds : List String) (st : Agenda),
      ds.foldl (vstep f) (.ok st) = .err e →
      ∃ s d, visittask f s d = .err e := by
  intro ds
  induction ds with
  | nil => intro st h; cases h
  | cons d ds ih =>
    intro st h
    cases hv : visittask f st d with
    | ok s1 =>
      rw [foldl_vstep_cons_ok ds hv] at h
      exact ih s1 h
    | err e1 =>
      rw [foldl_vstep_cons_err ds hv] at h
      cases h
      exact ⟨st, d, hv⟩
    | fuelOut =>
      rw [foldl_vstep_cons_fuelOut ds hv] at h
      cases h

theorem visittask_err_cyclic :
    ∀ (fuel : Nat) (st : Agenda) (n : String) (e : CErr),
      visittask fuel st n = .err e → e = .cyclic := by
  intro fuel
  induction fuel with
  | zero => intro st n e h; cases h
  | succ f ih =>
    intro st n e h
    cases hf : findTask st.tasks n with
    | none => rw [visittask_none hf] at h; cases h
    | some t =>
      by_cases h2 : t.visited > 1
      · rw [visittask_gt hf h2] at h; cases h
      · by_cases h1 : t.visited = 1
        · rw [visittask_one hf h1] at h
          cases h
          rfl
        · have h0 : t.visited = 0 := by omega
          rw [visittask_zero hf h0] at h
          cases hr : t.deps.foldl (vstep f) (.ok (markVisited st n 1)) with
          | ok s2 => rw [hr, vfinish_ok] at h; cases h
          | err e1 =>
            rw [hr, vfinish_err] at h
            cases h
            obtain ⟨s, d, hv⟩ := foldl_vstep_err_inv t.deps _ hr
            exact ih s d _ hv
          | fuelOut => rw [hr, vfinish_fuelOut] at h; cases h

theorem pass1_err {e : CErr} :
    ∀ (ns : List String) (st : Agenda),
      pass1 st ns = .err e →
      e = .cyclic ∨
        ∃ m t, e = .undefinedTask m ∧ findTask st.tasks m = some t ∧
          t.init = false ∧ t.name = m := by
  intro ns
  induction ns with
  | nil => intro st h; cases h
  | cons n ns ih =>
    intro st h
    cases hf : findTask st.tasks n with
    | none =>
      rw [pass1_cons_none ns hf] at h
      exact ih st h
    | some t =>
      cases hib : t.init with
      | false =>
        rw [pass1_cons_uninit ns hf hib] at h
        cases h
        right
        refine ⟨t.name, t, rfl, ?_, hib, rfl⟩
        rw [findTask_name hf]
        exact hf
      | true =>
        by_cases h0 : t.visited = 0
        · cases hv : visittask (st.tasks.length + 1) st n with
          | ok st2 =>
            rw [pass1_cons_ok ns hf hib h0 hv] at h
            rcases ih st2 h with hc | ⟨m, u, he, hfu, hui, hun⟩
            · exact Or.inl hc
            · obtain ⟨hfr, -⟩ := visittask_frame _ st n st2 hv
              right
              cases hfm : findTask st.tasks m with
              | none =>
                rw [(findTask_frame hfr m).1 hfm] at hfu
                cases hfu
              | some t0 =>
                obtain ⟨u', hfu', hcu⟩ := (findTask_frame hfr m).2 t0 hfm
                rw [hfu'] at hfu
                cases hfu
                refine ⟨m, t0, he, hfm, ?_, ?_⟩
                · rw [← coreEq_init hcu]
                  exact hui
                · rw [← coreEq_name hcu]
                  exact hun
          | err e1 =>
            rw [pass1_cons_err ns hf hib h0 hv] at h
            cases h
            exact Or.inl (visittask_err_cyclic _ st n _ hv)
          | fuelOut =>
            rw [pass1_cons_fuelOut ns hf hib h0 hv] at h
            cases h
        · rw [pass1_cons_visited ns hf hib h0] at h
          exact ih st h

/-! ## Packaging the first pass for the claims -/

theorem staged_of_pass1 {ts : List Task} {st' : Agenda} (hWF : WF ts)
    (h : pass1 { tasks := ts, sorted := [] } (ts.map (fun t => t.name)) = .ok st') :
    Staged st' := by
  obtain ⟨hfr, hnd, g1, hmemiff, hall, htopo, hdreg⟩ := pass1_post hWF h
  exact ⟨hnd, hdreg, g1, hmemiff, fun t ht => (hall t ht).2.2, htopo⟩

/-! ## Edge monotonicity of the final nicenesses -/

theorem pass2_edge {today : Int} {S : Agenda} (hst : Staged S) {u w : Task}
    (hu : u ∈ (pass2 today S).tasks) (hw : w ∈ (pass2 today S).tasks)
    {d : String} (hd : d ∈ u.deps) (hwn : w.name = d) : w.nice ≤ u.nice := by
  have hfrA : List.Forall₂ decN S.tasks (pass2 today S).tasks := by
    rw [pass2]
    exact foldl_calcniceStep_dec _ S hst.1
  have hndA : NamesNodup (pass2 today S).tasks :=
    namesNodup_of_decN hfrA hst.1
  have hfu : findTask (pass2 today S).tasks u.name = some u :=
    nodup_findTask hndA hu
  obtain ⟨u0, hfu0, hdecu⟩ := decN_back hfrA hfu
  obtain ⟨ux, hfux, -, -, hprop⟩ := pass2_at hst hfu0
  rw [hfu] at hfux
  cases hfux
  have hd0 : d ∈ u0.deps := by
    rw [← coreN_deps hdecu.1]
    exact hd
  have hfw : findTask (pass2 today S).tasks d = some w := by
    rw [← hwn]
    exact nodup_findTask hndA hw
  exact hprop d hd0 w hfw

theorem dependsOn_of_forall2 {R : Task → Task → Prop}
    (hname : ∀ t u, R t u → u.name = t.name)
    (hdeps : ∀ t u, R t u → u.deps = t.deps)
    {ts ts' : List Task} (h : List.Forall₂ R ts ts') {x y : String}
    (hdep : DependsOn ts x y) : DependsOn ts' x y := by
  obtain ⟨t, ht, htx, hty⟩ := hdep
  obtain ⟨u, hu, hr⟩ := forall2_mem_left h ht
  refine ⟨u, hu, ?_, ?_⟩
  · rw [hname t u hr, htx]
  · rw [hdeps t u hr]
    exact hty

theorem dependsTrans_of_forall2 {R : Task → Task → Prop}
    (hname : ∀ t u, R t u → u.name = t.name)
    (hdeps : ∀ t u, R t u → u.deps = t.deps)
    {ts ts' : List Task} (h : List.Forall₂ R ts ts') {x y : String}
    (hdep : DependsTrans ts x y) : DependsTrans ts' x y :=
  Relation.TransGen.mono (fun _ _ hr => dependsOn_of_forall2 hname hdeps h hr) hdep

theorem dependsTrans_nice {today : Int} {S : Agenda} (hst : Staged S) :
    ∀ x y, DependsTrans (pass2 today S).tasks x y →
      ∀ u w, findTask (pass2 today S).tasks x = some u →
        findTask (pass2 today S).tasks y = some w → w.nice ≤ u.nice := by
  have hfrA : List.Forall₂ decN S.tasks (pass2 today S).tasks := by
    rw [pass2]
    exact foldl_calcniceStep_dec _ S hst.1
  have hndA : NamesNodup (pass2 today S).tasks :=
    namesNodup_of_decN hfrA hst.1
  intro x y h
  induction h with
  | single hxy =>
    intro u w hfu hfw
    obtain ⟨t, ht, htx, hty⟩ := hxy
    have hft : findTask (pass2 today S).tasks x = some t := by
      rw [← htx]
      exact nodup_findTask hndA ht
    rw [hfu] at hft
    cases hft
    exact pass2_edge hst (findTask_mem hfu) (findTask_mem hfw) hty
      (findTask_name hfw)
  | tail hxb hbc ih =>
    intro u w hfu hfw
    obtain ⟨t, ht, htb, hty⟩ := hbc
    have hfb := nodup_findTask hndA ht
    rw [htb] at hfb
    have h1 : w.nice ≤ t.nice :=
      pass2_edge hst ht (findTask_mem hfw) hty (findTask_name hfw)
    have h2 : t.nice ≤ u.nice := ih u t hfu hfb
    exact le_trans h1 h2

/-! ## A cycle contradicts the topological order -/

theorem dependsTrans_indexOf {st' : Agenda} (hnd : st'.sorted.Nodup)
    (htopo : ∀ t ∈ st'.tasks, ∀ d ∈ t.deps, SplitBefore st'.sorted d t.name) :
    ∀ x y, DependsTrans st'.tasks x y →
      st'.sorted.indexOf y < st'.sorted.indexOf x := by
  intro x y h
  induction h with
  | single hxy =>
    obtain ⟨t, ht, htx, hty⟩ := hxy
    have hs := htopo t ht _ hty
    rw [htx] at hs
    exact splitBefore_indexOf hnd hs
  | tail hxb hbc ih =>
    obtain ⟨t, ht, htb, hty⟩ := hbc
    have hs := htopo t ht _ hty
    rw [htb] at hs
    have h1 := splitBefore_indexOf hnd hs
    omega

theorem pass1_no_cycle {ts : List Task} {st' : Agenda} (hWF : WF ts)
    (h : pass1 { tasks := ts, sorted := [] } (ts.map (fun t => t.name)) = .ok st')
    (hcyc : HasCycle ts) : False := by
  obtain ⟨hfr, hnd, g1, hmemiff, hall, htopo, hdreg⟩ := pass1_post hWF h
  obtain ⟨n, hn⟩ := hcyc
  have hn' : DependsTrans st'.tasks n n :=
    dependsTrans_of_forall2 (fun t u hr => coreEq_name hr)
      (fun t u hr => coreEq_deps hr) hfr hn
  exact lt_irrefl _ (dependsTrans_indexOf g1 htopo n n hn')

/-! ## Last helper lemmas before the claims -/

theorem coreEq_ownNice (today : Int) {t u : Task} (h : coreEq t u) :
    ownNice today u = ownNice today t := by
  unfold ownNice
  rw [coreEq_due h, coreEq_pri h]

theorem sorttasks_staged {today : Int} {ts : List Task} {A : Agenda}
    (hwf : WF ts) (hok : sorttasks today ts = .ok A) :
    ∃ S, Staged S ∧ A = pass2 today S ∧ List.Forall₂ coreEq ts S.tasks := by
  obtain ⟨S, hp, hA⟩ := sorttasks_ok_inv hok
  obtain ⟨hfr, -⟩ := pass1_post hwf hp
  exact ⟨S, staged_of_pass1 hwf hp, hA, hfr⟩

theorem outputOf_ok {today : Int} {ts : List Task} {A : Agenda}
    (hok : sorttasks today ts = .ok A) : outputOf today ts = output A := by
  unfold outputOf
  rw [hok]

theorem outputOf_mem_inv {today : Int} {ts : List Task} {t : Task}
    (h : t ∈ outputOf today ts) :
    ∃ A, sorttasks today ts = .ok A ∧ t ∈ output A := by
  unfold outputOf at h
  cases hok : sorttasks today ts with
  | ok A =>
    rw [hok] at h
    exact ⟨A, rfl, h⟩
  | err e => rw [hok] at h; cases h
  | fuelOut => rw [hok] at h; cases h

theorem sorted_length_eq {S : Agenda} (hst : Staged S) :
    S.sorted.length = S.tasks.length := by
  have hperm : S.sorted.Perm (S.tasks.map (fun t => t.name)) := by
    refine (List.perm_ext_iff_of_nodup hst.2.2.1 hst.1).2 ?_
    intro a
    exact hst.2.2.2.1 a
  rw [hperm.length_eq, List.length_map]
/-! # The claims -/

/-- Claim C1 (confirmed).  After the pipeline completes without a fatal
error, for every task `T` and every prerequisite `P` of `T`, direct or
transitive, such that both appear in the final printed output, the
propagated niceness of `P` is at most the propagated niceness of `T`. -/
theorem c1_topological_respect {today : Int} {ts : List Task} (hwf : WF ts)
    {T P : String} (hdep : DependsTrans ts T P) {tT tP : Task}
    (hT : tT ∈ outputOf today ts) (hTn : tT.name = T)
    (hP : tP ∈ outputOf today ts) (hPn : tP.name = P) :
    tP.nice ≤ tT.nice := by
  obtain ⟨A, hok, hTo⟩ := outputOf_mem_inv hT
  have hPo : tP ∈ output A := by
    rw [outputOf_ok hok] at hP
    exact hP
  obtain ⟨S, hst, hA, hfr⟩ := sorttasks_staged hwf hok
  subst hA
  have hfrA : List.Forall₂ decN S.tasks (pass2 today S).tasks := by
    rw [pass2]
    exact foldl_calcniceStep_dec _ S hst.1
  have hndA : NamesNodup (pass2 today S).tasks :=
    namesNodup_of_decN hfrA hst.1
  have hdep1 : DependsTrans S.tasks T P :=
    dependsTrans_of_forall2 (fun t u hr => coreEq_name hr)
      (fun t u hr => coreEq_deps hr) hfr hdep
  have hdepA : DependsTrans (pass2 today S).tasks T P :=
    dependsTrans_of_forall2 (fun t u hr => decN_name hr)
      (fun t u hr => coreN_deps hr.1) hfrA hdep1
  have hfT : findTask (pass2 today S).tasks T = some tT := by
    rw [← hTn]
    exact nodup_findTask hndA (output_mem_tasks hTo)
  have hfP : findTask (pass2 today S).tasks P = some tP := by
    rw [← hPn]
    exact nodup_findTask hndA (output_mem_tasks hPo)
  exact dependsTrans_nice hst T P hdepA tT tP hfT hfP

/-- Witness for C1: in the chain where `t` depends on done `x` which
depends on `p`, both `t` and `p` reach the output and the prerequisite is
at least as urgent. -/
theorem c1_topological_respect_witness :
    ({ name := "p", init := true, nice := 3, visited := 2 } : Task).nice ≤
      ({ name := "t", init := true, nice := 3, visited := 2,
         deps := ["x"] } : Task).nice :=
  @c1_topological_respect 0 chainTs (by unfold WF chainTs; decide) "t" "p"
    (Relation.TransGen.tail
      (Relation.TransGen.single
        (show DependsOn chainTs "t" "x" by unfold DependsOn chainTs; decide))
      (show DependsOn chainTs "x" "p" by unfold DependsOn chainTs; decide))
    { name := "t", init := true, nice := 3, visited := 2, deps := ["x"] }
    { name := "p", init := true, nice := 3, visited := 2 }
    (by unfold outputOf chainTs; decide) (by decide)
    (by unfold outputOf chainTs; decide) (by decide)

/-- Claim C2 (corrected).  The base urgency of a task is the signed
floor-base-2-logarithm bucket of `daysLeft - 1` — not of `daysLeft` as
claimed — minus the numeric priority, where `daysLeft` is due minus today
when a due date is set; without a due date the bucket argument is the
default of 8 unreduced. -/
theorem c2_base_urgency (today : Int) (t : Task) :
    ownNice today t =
      specBucket (match t.due with
        | some d => d - today - 1
        | none => DEFDAYS) - t.pri := by
  unfold ownNice specBucket
  cases t.due with
  | none => simp [shifts_eq_log]
  | some d => simp [shifts_eq_log]

/-- Counterexample for C2: a task due in two days from the reference day
gets code urgency 0 (bucket of 2 - 1 = 1), while the claimed formula
yields the bucket of 2, which is 1. -/
theorem c2_counterexample :
    ownNice 0 { name := "a", due := some 2 } = 0 ∧
    specOwnNice 0 { name := "a", due := some 2 } = 1 := by
  constructor
  · rfl
  · show specBucket 2 - 0 = 1
    unfold specBucket
    rw [if_neg (by omega)]
    have hl : Nat.log 2 2 = 1 :=
      Nat.log_eq_of_pow_le_of_lt_pow (by norm_num) (by norm_num)
    rw [show (2 : Int).toNat = 2 from rfl, hl]
    rfl

/-- Claim C3 (corrected).  Before propagation every urgency field holds
`DEFNICE = 3`; because `calcnice` only writes conditional minima, that
value is a cap, not a neutral sentinel: the final urgency of a task is the
minimum of its own base urgency, of `DEFNICE`, and of the final urgencies
of its dependents — a task whose base urgency exceeds the default bucket
does not keep it. -/
theorem c3_final_urgency {today : Int} {ts : List Task} {A : Agenda}
    (hwf : WF ts) (hok : sorttasks today ts = .ok A) {m : String}
    {t0 : Task} (hft0 : findTask ts m = some t0) :
    ∃ u, findTask A.tasks m = some u ∧
      u.nice = ((A.tasks.filter (fun x => x.deps.contains m)).map
          (fun x => x.nice)).foldr min (min (ownNice today t0) DEFNICE) := by
  obtain ⟨S, hst, hA, hfr⟩ := sorttasks_staged hwf hok
  subst hA
  obtain ⟨t1, hft1, hc⟩ := (findTask_frame hfr m).2 t0 hft0
  obtain ⟨u, hfu, hun⟩ := pass2_equation hst hft1
  refine ⟨u, hfu, ?_⟩
  rw [hun, coreEq_ownNice today hc]

/-- Witness for C3: one task due in twenty days, base urgency 4; its final
urgency is the cap 3, the minimum of 4 and `DEFNICE` over no
dependents. -/
theorem c3_final_urgency_witness :
    ∃ u, findTask farFinal.tasks "a" = some u ∧
      u.nice = ((farFinal.tasks.filter (fun x => x.deps.contains "a")).map
          (fun x => x.nice)).foldr min
        (min (ownNice 0 { name := "a", init := true, due := some 20 })
          DEFNICE) :=
  @c3_final_urgency 0 farTs farFinal (by unfold WF farTs; decide)
    (by unfold farTs farFinal; decide) "a"
    { name := "a", init := true, due := some 20 } (by unfold farTs; decide)

/-- Counterexample for C3: the same one-task run; the base urgency is 4
and there are no dependents, so the claimed equation `min(b)` gives 4, but
the code's final urgency is the initialization value 3 — the
initialization is not neutral for the min-reduction. -/
theorem c3_counterexample :
    ownNice 0 { name := "a", init := true, due := some 20 } = 4 ∧
    runNice 0 farTs "a" = some 3 := by
  unfold farTs
  decide
/-- Claim C4 (corrected).  For an input whose dependency relation has a
cycle and whose tasks are all defined, the run aborts with the fatal
cyclic-dependency error and produces no ranked output; the error message,
however, is the fixed string \"cyclic dependency between tasks\" and names
no involved task, and when some referenced task is also undefined the
undefined-task abort can preempt the cycle abort, so the all-defined
proviso is needed. -/
theorem c4_cycle_abort {today : Int} {ts : List Task} (hwf : WF ts)
    (hinit : ∀ t ∈ ts, t.init = true) (hcyc : HasCycle ts) :
    sorttasks today ts = .err .cyclic ∧
    errmsg .cyclic = "cyclic dependency between tasks" ∧
    ∀ n, runNice today ts n = none := by
  cases hp : pass1 { tasks := ts, sorted := [] } (ts.map (fun t => t.name)) with
  | ok st => exact (pass1_no_cycle hwf hp hcyc).elim
  | err e =>
    rcases pass1_err _ _ hp with rfl | ⟨m, t, rfl, hft, hui, -⟩
    · refine ⟨sorttasks_of_pass1_err hp, rfl, ?_⟩
      intro n
      unfold runNice
      rw [sorttasks_of_pass1_err hp]
    · have := hinit t (findTask_mem hft)
      rw [hui] at this
      cases this
  | fuelOut => exact (pass1_ne_fuelOut _ _ hp).elim

/-- Witness for C4: two defined tasks depending on each other abort with
the cycle error and yield no nicenesses. -/
theorem c4_cycle_abort_witness :
    sorttasks 0 cycTs = .err .cyclic ∧
    errmsg .cyclic = "cyclic dependency between tasks" ∧
    ∀ n, runNice 0 cycTs n = none :=
  @c4_cycle_abort 0 cycTs (by unfold WF cycTs; decide)
    (by unfold cycTs; decide)
    ⟨"q0", Relation.TransGen.tail
      (Relation.TransGen.single
        (show DependsOn cycTs "q0" "q1" by unfold DependsOn cycTs; decide))
      (show DependsOn cycTs "q1" "q0" by unfold DependsOn cycTs; decide)⟩

/-- Counterexample for C4: the cyclic input over tasks `q0` and `q1`
aborts with a message in which neither task name occurs — the error does
not name an involved task. -/
theorem c4_counterexample :
    sorttasks 0 cycTs = .err .cyclic ∧
    hasSub "q0".toList (errmsg .cyclic).toList = false ∧
    hasSub "q1".toList (errmsg .cyclic).toList = false := by
  unfold cycTs
  refine ⟨by decide, by decide, by decide⟩

/-- Claim C5 (corrected).  When some registered task was referenced but
never defined, the run aborts with a fatal error and produces no ranked
output; the error is the undefined-task error naming an undefined task
unless a dependency cycle reached earlier in the registry walk preempts
it with the cycle error — the abort is not always the undefined-task
one. -/
theorem c5_undefined_abort {today : Int} {ts : List Task} (hwf : WF ts)
    {t0 : Task} (ht0 : t0 ∈ ts) (hinit : t0.init = false) :
    (∃ e, sorttasks today ts = .err e ∧
      (e = .cyclic ∨ ∃ m u, e = .undefinedTask m ∧ findTask ts m = some u ∧
        u.init = false)) ∧
    ∀ n, runNice today ts n = none := by
  cases hp : pass1 { tasks := ts, sorted := [] } (ts.map (fun t => t.name)) with
  | ok st =>
    exfalso
    obtain ⟨hfr, -, -, -, hall, -⟩ := pass1_post hwf hp
    obtain ⟨u, hu, hc⟩ := forall2_mem_left hfr ht0
    have h1 := (hall u hu).2.1
    rw [coreEq_init hc, hinit] at h1
    cases h1
  | err e =>
    have hnone : ∀ n, runNice today ts n = none := by
      intro n
      unfold runNice
      rw [sorttasks_of_pass1_err hp]
    rcases pass1_err _ _ hp with rfl | ⟨m, u, rfl, hfu, hui, -⟩
    · exact ⟨⟨.cyclic, sorttasks_of_pass1_err hp, Or.inl rfl⟩, hnone⟩
    · exact ⟨⟨.undefinedTask m, sorttasks_of_pass1_err hp,
        Or.inr ⟨m, u, rfl, hfu, hui⟩⟩, hnone⟩
  | fuelOut => exact (pass1_ne_fuelOut _ _ hp).elim

/-- Witness for C5: a lone never-defined task draws a fatal abort — here
the undefined-task error naming it — and no nicenesses. -/
theorem c5_undefined_abort_witness :
    (∃ e, sorttasks 0 soloUninit = .err e ∧
      (e = .cyclic ∨ ∃ m u, e = .undefinedTask m ∧
        findTask soloUninit m = some u ∧ u.init = false)) ∧
    ∀ n, runNice 0 soloUninit n = none :=
  @c5_undefined_abort 0 soloUninit (by unfold WF soloUninit; decide)
    { name := "c" } (by unfold soloUninit; decide) (by decide)

/-- Counterexample for C5: an input whose registry has the never-defined
task `c` and, ahead of it in the registry walk, the self-cycle `b`: the
run aborts with the cycle error, not with an undefined-task error naming
`c`. -/
theorem c5_counterexample :
    ((findTask (readtasks false 0 cycUndefLines).1 "c").map
      (fun t => t.init)) = some false ∧
    sorttasks 0 (readtasks false 0 cycUndefLines).1 = .err .cyclic := by
  unfold cycUndefLines
  refine ⟨by decide, by decide⟩
/-- Claim C6 (confirmed).  A task that is done, and a task that is not
done but has a dependency edge to a not-done prerequisite, never appears
in the output, regardless of its urgency or due date. -/
theorem c6_blocking_exclusion {st : Agenda} {t : Task}
    (h : t.done = true ∨ ∃ d ∈ t.deps, ∃ u, findTask st.tasks d = some u ∧
      u.done = false) :
    t ∉ output st := by
  intro hmem
  have hub := output_mem_unblocked.1 hmem
  unfold unblocked at hub
  obtain ⟨-, hpred⟩ := List.mem_filter.1 hub
  rcases h with hd | ⟨d, hd, u, hfu, hud⟩
  · rw [hd] at hpred
    cases hpred
  · rw [Bool.and_eq_true] at hpred
    have h2 : u.done = true := by
      have h3 := (List.all_eq_true.1 hpred.2) d hd
      rw [hfu] at h3
      exact h3
    rw [hud] at h2
    cases h2

/-- Witness for C6: in the finished agenda where `a` depends on the
undone `b`, the task `a` is not printed. -/
theorem c6_blocking_exclusion_witness :
    ({ name := "a", init := true, deps := ["b"] } : Task) ∉
      output blockedAgenda :=
  @c6_blocking_exclusion blockedAgenda
    { name := "a", init := true, deps := ["b"] }
    (Or.inr (by unfold blockedAgenda; decide))

/-- Claim C7 (code bug).  With the `-d` flag, `adddue` does mark a task
with a past due date done at load time (todo.c 266-270), but `addtask`
then assigns `task->done` from the status tag after the properties have
been handled (todo.c 376), overwriting that mark; the overdue task stays
not done and is printed.  On the input below (reference day 18271 =
2020-01-10, due 2020-01-01) the claim requires the task to be excluded,
yet the run prints it. -/
theorem c7_overdue_auto_done_bug :
    (adddue true 18271 { name := "a", init := true } "2020-01-01").1.done
        = true ∧
    datetojulian 2020 1 1 < 18271 ∧
    ((findTask (readtasks true 18271 ["TODO a: buy milk due:2020-01-01"]).1
        "a").map (fun t => t.done)) = some false ∧
    mainModel true 18271 ["TODO a: buy milk due:2020-01-01"] =
      (some ["buy milk"], [], 0) := by
  refine ⟨by decide, by decide, by decide, by decide⟩

/-- Claim C8 (corrected).  A recoverable error — an unparseable due date,
an unknown property keyword, a malformed task line — draws a diagnostic
and processing continues, but no had-errors flag exists for them: the
exit status is 0 exactly when the graph passes succeed, regardless of the
diagnostics. -/
theorem c8_recoverable_errors {dflag : Bool} {today : Int}
    {lines : List String} :
    (mainModel dflag today lines).2.2 = 0 ↔
      ∃ st, sorttasks today (readtasks dflag today lines).1 = .ok st := by
  unfold mainModel
  cases h : sorttasks today (readtasks dflag today lines).1 with
  | ok st => simp [h]
  | err e => simp [h]
  | fuelOut => simp [h]

/-- Counterexample for C8: a run with three diagnostics — invalid date,
unknown property, malformed line — still processes the following
well-formed task and exits 0; the overall exit status does not reflect
the recoverable failures. -/
theorem c8_counterexample :
    mainModel false 0 warnLines =
      (some ["fine", "x"],
        [.unknownProp "bad", .invalidDate "zzz", .notATask "oops"], 0) := by
  unfold warnLines
  decide

/-- Claim C9 (confirmed).  In a completed run, the topologically sorted
list holds each task at most once; the unblocked array holds each task at
most once and its size never exceeds the number of registered tasks (so
the `ecalloc(ntasks)` array is never overrun); and no task is printed
twice. -/
theorem c9_at_most_once {today : Int} {ts : List Task} {A : Agenda}
    (hwf : WF ts) (hok : sorttasks today ts = .ok A) :
    A.sorted.Nodup ∧
    ((unblocked A).map (fun t => t.name)).Nodup ∧
    (unblocked A).length ≤ A.tasks.length ∧
    ((output A).map (fun t => t.name)).Nodup := by
  obtain ⟨S, hst, hA, hfr⟩ := sorttasks_staged hwf hok
  subst hA
  have hsorted : (pass2 today S).sorted = S.sorted := pass2_sorted today S
  have hnd : (pass2 today S).sorted.Nodup := by
    rw [hsorted]
    exact hst.2.2.1
  refine ⟨hnd, unblocked_names_nodup hnd, ?_, output_names_nodup hnd⟩
  have h1 := unblocked_length_le_sorted (pass2 today S)
  have h2 : (pass2 today S).sorted.length = S.tasks.length := by
    rw [hsorted]
    exact sorted_length_eq hst
  have hfrA : List.Forall₂ decN S.tasks (pass2 today S).tasks := by
    rw [pass2]
    exact foldl_calcniceStep_dec _ S hst.1
  have h3 := hfrA.length_eq
  omega

/-- Witness for C9: the single-task run satisfies all four uniqueness and
bound facts. -/
theorem c9_at_most_once_witness :
    farFinal.sorted.Nodup ∧
    ((unblocked farFinal).map (fun t => t.name)).Nodup ∧
    (unblocked farFinal).length ≤ farFinal.tasks.length ∧
    ((output farFinal).map (fun t => t.name)).Nodup :=
  @c9_at_most_once 0 farTs farFinal (by unfold WF farTs; decide)
    (by unfold farTs farFinal; decide)

/-- Claim C10 (confirmed).  The depth-first visit terminates: with more
fuel than there are unvisited tasks the fuel never runs out — each
invocation returns, aborts on a cycle, or marks its task before recursing
— and the whole sorting phase never exhausts the fuel `sorttasks`
supplies. -/
theorem c10_termination :
    (∀ (fuel : Nat) (st : Agenda) (n : String),
        count0 st.tasks < fuel → visittask fuel st n ≠ .fuelOut) ∧
    (∀ (today : Int) (ts : List Task), sorttasks today ts ≠ .fuelOut) := by
  refine ⟨visittask_ne_fuelOut, ?_⟩
  intro today ts h
  cases hp : pass1 { tasks := ts, sorted := [] } (ts.map (fun t => t.name)) with
  | ok st =>
    rw [sorttasks_of_pass1_ok hp] at h
    cases h
  | err e =>
    rw [sorttasks_of_pass1_err hp] at h
    cases h
  | fuelOut => exact pass1_ne_fuelOut _ _ hp

/-- Witness for C10: one unit of fuel suffices on the empty registry, and
the sort of the cyclic pair does not run out of fuel. -/
theorem c10_termination_witness :
    visittask 1 { tasks := [], sorted := [] } "a" ≠ .fuelOut ∧
    sorttasks 0 cycTs ≠ .fuelOut :=
  ⟨c10_termination.1 1 { tasks := [], sorted := [] } "a" (by decide),
   c10_termination.2 0 cycTs⟩
end OrgTodo
